import Mathlib

set_option maxHeartbeats 1000000
set_option maxRecDepth 8000
set_option linter.unusedVariables false
set_option linter.unnecessarySeqFocus false

/-!
Shallow embedding of the dependency-analysis core of the treeshake-check
repository: the text normalizer (src/utils/strip-literals.ts), the
regex-based fallback extractor, the module resolver, the export/import
graph builder and the two detectors (unused exports and circular
dependencies), all from src/analyzers/exports.ts.

Source text is modelled as List Char (String.data) and string primitives
(startsWith, endsWith, split, includes, trim) are defined here by
structural recursion so that every definition evaluates.  The filesystem
is modelled as a snapshot structure of pure query functions; readFile
returning none models readFileSync throwing.  The acorn parser is an
external library, so the primary extraction path takes the parse result
as an abstract parameter producing the AST shapes that the walk handlers
in buildExportGraph inspect; the handlers themselves are embedded
faithfully.
-/

/-- Filesystem snapshot: existence and kind queries used by the resolver
(existsSync and statSync().isDirectory()) plus file reading
(readFileSync); readFile = none models readFileSync throwing. -/
structure FS where
  isFile : String → Bool
  isDir : String → Bool
  readFile : String → Option String

/-- existsSync over the snapshot: the path exists as a file or a directory. -/
def existsSync (fs : FS) (p : String) : Bool :=
  fs.isFile p || fs.isDir p

/-- Split a character list at every occurrence of the separator char. -/
def splitOnCharL (c : Char) : List Char → List (List Char)
  | [] => [[]]
  | x :: xs =>
    match splitOnCharL c xs with
    | [] => [[]]
    | g :: gs => if x = c then [] :: g :: gs else (x :: g) :: gs

/-- Interleave a separator between the pieces and concatenate. -/
def listIntercalate (sep : List Char) : List (List Char) → List Char
  | [] => []
  | [x] => x
  | x :: y :: rest => x ++ sep ++ listIntercalate sep (y :: rest)

/-- JS String.prototype.startsWith. -/
def strStartsWith (s pre : String) : Bool :=
  pre.data.isPrefixOf s.data

/-- JS String.prototype.endsWith. -/
def strEndsWith (s suf : String) : Bool :=
  suf.data.isSuffixOf s.data

/-- JS String.prototype.slice(0, length - n). -/
def strDropRight (s : String) (n : Nat) : String :=
  ⟨s.data.take (s.data.length - n)⟩

/-- Split an absolute path into its nonempty segments. -/
def splitPath (p : String) : List (List Char) :=
  (splitOnCharL '/' p.data).filter (fun s => ¬ s.isEmpty)

/-- Reassemble segments into an absolute path. -/
def joinSegs (l : List (List Char)) : String :=
  ⟨'/' :: listIntercalate ['/'] l⟩

/-- Normalize segments, interpreting the dot and dot-dot segments. -/
def normSegs : List (List Char) → List (List Char) → List (List Char)
  | acc, [] => acc
  | acc, s :: rest =>
    if s = ['.'] then normSegs acc rest
    else if s = ['.', '.'] then normSegs acc.dropLast rest
    else normSegs (acc ++ [s]) rest

/-- path.resolve(dir, p) for an absolute dir and a relative p. -/
def resolvePath (dir p : String) : String :=
  joinSegs (normSegs [] (splitPath dir ++ splitPath p))

/-- path.dirname for an absolute path. -/
def dirname (p : String) : String :=
  joinSegs (splitPath p).dropLast

/-- path.join(d, s) for a relative final component s. -/
def joinPath (d s : String) : String :=
  if strEndsWith d "/" then d ++ s else d ++ "/" ++ s

/-- Segments of path.relative(fromP, toP): strip the common prefix, then
one dot-dot per remaining source segment followed by the remaining target
segments. -/
def relSegs : List (List Char) → List (List Char) → List (List Char)
  | [], ts => ts
  | f :: fr, [] => (f :: fr).map (fun _ => ['.', '.'])
  | f :: fr, t :: tr =>
    if f = t then relSegs fr tr
    else (f :: fr).map (fun _ => ['.', '.']) ++ (t :: tr)

/-- path.relative(fromP, toP) for absolute normalized paths. -/
def relativePath (fromP toP : String) : String :=
  ⟨listIntercalate ['/'] (relSegs (splitPath fromP) (splitPath toP))⟩

/-- The fixed extension priority list RESOLVE_EXTENSIONS. -/
def RESOLVE_EXTENSIONS : List String :=
  [".ts", ".tsx", ".js", ".jsx", ".mjs", ".mts"]

/-- Resolve a directory path to its index file, trying index plus each
extension of the priority list in order. -/
def resolveIndexFile (fs : FS) (dirPath : String) : Option String :=
  (RESOLVE_EXTENSIONS.map (fun ext => joinPath dirPath ("index" ++ ext))).find?
    (fun p => existsSync fs p)

/-- resolveImportPath from src/analyzers/exports.ts: resolve an import
specifier against the importing file.  Bare (non relative) specifiers are
returned unchanged, which the code treats as external; a relative
specifier is resolved against the filesystem snapshot, falling back to
the unresolved absolute path (also treated as external downstream). -/
def resolveImportPath (fs : FS) (fromFile importPath : String) : String :=
  if strStartsWith importPath "." then
    let dir := dirname fromFile
    let resolved := resolvePath dir importPath
    if existsSync fs resolved then
      if fs.isDir resolved then (resolveIndexFile fs resolved).getD resolved
      else resolved
    else
      match (RESOLVE_EXTENSIONS.map (fun ext => resolved ++ ext)).find?
          (fun p => existsSync fs p) with
      | some withExt => withExt
      | none =>
        let compiled : Option String :=
          if strEndsWith resolved ".js" then
            ([".ts", ".tsx", ".js"].map (fun ext => strDropRight resolved 3 ++ ext)).find?
              (fun p => existsSync fs p)
          else if strEndsWith resolved ".jsx" then
            ([".tsx", ".jsx"].map (fun ext => strDropRight resolved 4 ++ ext)).find?
              (fun p => existsSync fs p)
          else none
        match compiled with
        | some p => p
        | none =>
          match resolveIndexFile fs resolved with
          | some indexResolved => indexResolved
          | none => resolved
  else importPath

/-- Modelled from the claim C5 wording: the five ordered resolution steps,
with the EXTERNAL sentinel represented as none.  (1) literal regular file;
(2) literal directory, resolved to an index file or degraded to the
directory path itself; (3) the literal path with each extension of the
fixed priority list appended; (4) for a compiled-output extension, the
corresponding source extensions; (5) otherwise EXTERNAL. -/
def resolveImportPathSpec (fs : FS) (fromFile importPath : String) : Option String :=
  if strStartsWith importPath "." then
    let resolved := resolvePath (dirname fromFile) importPath
    if fs.isFile resolved then some resolved
    else if fs.isDir resolved then some ((resolveIndexFile fs resolved).getD resolved)
    else
      match (RESOLVE_EXTENSIONS.map (fun ext => resolved ++ ext)).find?
          (fun p => existsSync fs p) with
      | some withExt => some withExt
      | none =>
        if strEndsWith resolved ".js" then
          ([".ts", ".tsx", ".js"].map (fun ext => strDropRight resolved 3 ++ ext)).find?
            (fun p => existsSync fs p)
        else if strEndsWith resolved ".jsx" then
          ([".tsx", ".jsx"].map (fun ext => strDropRight resolved 4 ++ ext)).find?
            (fun p => existsSync fs p)
        else none
  else none

/-- Well-formedness of a filesystem snapshot: no path is both a regular
file and a directory, and an existing index file inside a path means that
path is a directory. -/
def WFfs (fs : FS) : Prop :=
  (∀ p, ¬ (fs.isFile p = true ∧ fs.isDir p = true)) ∧
  (∀ d ext, ext ∈ RESOLVE_EXTENSIONS →
    existsSync fs (joinPath d ("index" ++ ext)) = true → fs.isDir d = true)

/-- Single-line comment body: mask until (not including) the next newline. -/
def lineC : List Char → List Char × List Char
  | [] => ([], [])
  | c :: rest =>
    if c = '\n' then ([], c :: rest)
    else
      let p := lineC rest
      (' ' :: p.1, p.2)

/-- Block comment body: mask until just after the closing star-slash,
keeping newlines. -/
def blockC : List Char → List Char × List Char
  | [] => ([], [])
  | '*' :: '/' :: rest => ([' ', ' '], rest)
  | c :: rest =>
    let p := blockC rest
    ((if c = '\n' then '\n' else ' ') :: p.1, p.2)

/-- Template literal body after the opening backtick, with the
interpolation nesting depth counter. -/
def tmplC : List Char → Nat → List Char × List Char
  | [], _ => ([], [])
  | '\\' :: _ :: rest, d =>
    let p := tmplC rest d
    (' ' :: ' ' :: p.1, p.2)
  | '$' :: '{' :: rest, d =>
    let p := tmplC rest (d + 1)
    (' ' :: ' ' :: p.1, p.2)
  | c :: rest, d =>
    if c = '}' ∧ d > 0 then
      let p := tmplC rest (d - 1)
      (' ' :: p.1, p.2)
    else if c = '`' ∧ d = 0 then ([' '], rest)
    else
      let p := tmplC rest d
      ((if c = '\n' then '\n' else ' ') :: p.1, p.2)

/-- String literal body after the opening quote q; an unterminated string
is closed at the next newline, which is kept. -/
def strC : List Char → Char → List Char × List Char
  | [], _ => ([], [])
  | '\\' :: _ :: rest, q =>
    let p := strC rest q
    (' ' :: ' ' :: p.1, p.2)
  | c :: rest, q =>
    if c = q then ([' '], rest)
    else if c = '\n' then (['\n'], rest)
    else
      let p := strC rest q
      (' ' :: p.1, p.2)

/-- The main scanning loop of stripLiteralsAndComments.  The fuel
argument makes the recursion structural (so that the function evaluates
by kernel reduction); stripL supplies fuel equal to the text length,
which is never exhausted because every step consumes at least one
character. -/
def stripGo : Nat → List Char → List Char
  | 0, _ => []
  | _, [] => []
  | fuel + 1, '/' :: '/' :: rest =>
    ' ' :: ' ' :: ((lineC rest).1 ++ stripGo fuel (lineC rest).2)
  | fuel + 1, '/' :: '*' :: rest =>
    ' ' :: ' ' :: ((blockC rest).1 ++ stripGo fuel (blockC rest).2)
  | fuel + 1, '`' :: rest =>
    ' ' :: ((tmplC rest 0).1 ++ stripGo fuel (tmplC rest 0).2)
  | fuel + 1, '\'' :: rest =>
    ' ' :: ((strC rest '\'').1 ++ stripGo fuel (strC rest '\'').2)
  | fuel + 1, '"' :: rest =>
    ' ' :: ((strC rest '"').1 ++ stripGo fuel (strC rest '"').2)
  | fuel + 1, c :: rest => c :: stripGo fuel rest

/-- stripLiteralsAndComments over a character list. -/
def stripL (l : List Char) : List Char :=
  stripGo l.length l

/-- stripLiteralsAndComments from src/utils/strip-literals.ts. -/
def stripLiteralsAndComments (source : String) : String :=
  ⟨stripL source.data⟩

/-- JS regex whitespace class (the ASCII part used by these patterns). -/
def isSpaceJS (c : Char) : Bool :=
  c = ' ' || c = '\t' || c = '\n' || c = '\r' || c = '\x0B' || c = '\x0C'

/-- JS regex word character (backslash-w): letters, digits, underscore. -/
def isWordChar (c : Char) : Bool :=
  c.isAlphanum || c = '_'

def isIdentStart (c : Char) : Bool :=
  c.isAlpha || c = '_' || c = '$'

def isIdentChar (c : Char) : Bool :=
  c.isAlphanum || c = '_' || c = '$'

def quoteChar (c : Char) : Bool :=
  c = '\'' || c = '"'

/-- Word boundary before a pattern starting with a word character: start
of input or a preceding non-word character. -/
def wordBoundary : Option Char → Bool
  | none => true
  | some c => ¬ isWordChar c

/-- Word boundary after a word character: end of input or a following
non-word character. -/
def notWordNext : List Char → Bool
  | [] => true
  | c :: _ => ¬ isWordChar c

/-- Match a literal character sequence, returning consumed length and rest. -/
def takeLit : List Char → List Char → Option (Nat × List Char)
  | [], s => some (0, s)
  | _ :: _, [] => none
  | c :: cs, x :: xs =>
    if x = c then (takeLit cs xs).map (fun p => (p.1 + 1, p.2)) else none

/-- Greedy one-or-more repetition of a character class. -/
def takeWhile1 (p : Char → Bool) (s : List Char) : Option (Nat × List Char) :=
  let n := (s.takeWhile p).length
  if n = 0 then none else some (n, s.drop n)

/-- Greedy one-or-more repetition, also returning the captured characters. -/
def captureWhile1 (p : Char → Bool) (s : List Char) : Option (List Char × Nat × List Char) :=
  let t := s.takeWhile p
  if t.isEmpty then none else some (t, t.length, s.drop t.length)

/-- An identifier: a letter, underscore or dollar, then letters, digits,
underscores or dollars, greedily. -/
def takeIdent : List Char → Option (List Char × Nat × List Char)
  | [] => none
  | c :: cs =>
    if isIdentStart c then
      let t := cs.takeWhile isIdentChar
      some (c :: t, t.length + 1, cs.drop t.length)
    else none

def takeSpaces1 : List Char → Option (Nat × List Char) :=
  takeWhile1 isSpaceJS

def takeQuote : List Char → Option (Nat × List Char)
  | [] => none
  | c :: rest => if quoteChar c then some (1, rest) else none

/-- A pattern matcher: given the character before the current position
and the text suffix at it, return captured data plus matched length. -/
def Matcher (α : Type) : Type :=
  Option Char → List Char → Option (α × Nat)

/-- JS String.prototype.matchAll: repeatedly find matches left to right,
resuming after the end of each match.  The fuel argument keeps the
recursion structural; scanAll supplies fuel equal to the text length,
which is never exhausted because every step consumes at least one
character. -/
def scanGo (m : Matcher α) : Nat → Option Char → Nat → List Char → List (Nat × α)
  | 0, _, _, _ => []
  | _, _, _, [] => []
  | fuel + 1, prev, i, c :: rest =>
    match m prev (c :: rest) with
    | some (a, n) =>
      (i, a) :: scanGo m fuel ((c :: rest)[max n 1 - 1]?.getD c) (i + max n 1)
        ((c :: rest).drop (max n 1))
    | none => scanGo m fuel (some c) (i + 1) rest

/-- All matches of a matcher over a text, with their start offsets. -/
def scanAll (m : Matcher α) (s : List Char) : List (Nat × α) :=
  scanGo m s.length none 0 s

/-- Try literal alternatives in order (committed choice). -/
def tryAlts : List (List Char) → List Char → Option (Nat × List Char)
  | [], _ => none
  | a :: rest, s =>
    match takeLit a s with
    | some r => some r
    | none => tryAlts rest s

/-- The declaration-keyword alternation of namedExportDeclRegex: const,
let, var, function with optional star, class, enum, abstract class. -/
def takeDeclKw (s : List Char) : Option (Nat × List Char) :=
  match tryAlts ["const".data, "let".data, "var".data, "function*".data,
      "function".data, "class".data, "enum".data] s with
  | some r => some r
  | none => do
    let (n1, s1) ← takeLit "abstract".data s
    let (n2, s2) ← takeSpaces1 s1
    let (n3, s3) ← takeLit "class".data s2
    some (n1 + n2 + n3, s3)

/-- The negative lookahead (?!type b) of the import patterns: true when
the suffix begins with the keyword type followed by a word boundary. -/
def typeAhead (s : List Char) : Bool :=
  match takeLit "type".data s with
  | some (_, rest) => notWordNext rest
  | none => false

/-- export default, tested (without captures) against normalized text. -/
def exportDefaultM : Matcher Unit := fun prev s =>
  if wordBoundary prev then do
    let (n1, s1) ← takeLit "export".data s
    let (n2, s2) ← takeSpaces1 s1
    let (n3, s3) ← takeLit "default".data s2
    if notWordNext s3 then some ((), n1 + n2 + n3) else none
  else none

/-- export const/let/var/function/class/enum/abstract-class NAME. -/
def namedExportDeclM : Matcher String := fun prev s =>
  if wordBoundary prev then do
    let (n1, s1) ← takeLit "export".data s
    let (n2, s2) ← takeSpaces1 s1
    let (n3, s3) ← takeDeclKw s2
    let (n4, s4) ← takeSpaces1 s3
    let (idc, n5, _) ← takeIdent s4
    some ((⟨idc⟩ : String), n1 + n2 + n3 + n4 + n5)
  else none

/-- export type/interface NAME. -/
def tsExportTypeM : Matcher String := fun prev s =>
  if wordBoundary prev then do
    let (n1, s1) ← takeLit "export".data s
    let (n2, s2) ← takeSpaces1 s1
    let (n3, s3) ← tryAlts ["type".data, "interface".data] s2
    let (n4, s4) ← takeSpaces1 s3
    let (idc, n5, _) ← takeIdent s4
    some ((⟨idc⟩ : String), n1 + n2 + n3 + n4 + n5)
  else none

/-- The shared tail of the re-export and import patterns: spaces, the
keyword from, spaces, a quote, the captured module specifier, a quote. -/
def fromClause (s : List Char) : Option (List Char × Nat) := do
  let (n1, s1) ← takeSpaces1 s
  let (n2, s2) ← takeLit "from".data s1
  let (n3, s3) ← takeSpaces1 s2
  let (n4, s4) ← takeQuote s3
  let (g, n5, s5) ← captureWhile1 (fun c => !quoteChar c) s4
  let (n6, _) ← takeQuote s5
  some (g, n1 + n2 + n3 + n4 + n5 + n6)

/-- export brace-list, optionally followed by a re-export source:
captures the raw name list and the optional module specifier. -/
def exportBraceM : Matcher (List Char × Option (List Char)) := fun prev s =>
  if wordBoundary prev then do
    let (n1, s1) ← takeLit "export".data s
    let (n2, s2) ← takeSpaces1 s1
    let (n3, s3) ← takeLit ['{'] s2
    let (g1, n4, s4) ← captureWhile1 (fun c => c != '}') s3
    let (n5, s5) ← takeLit ['}'] s4
    let head := n1 + n2 + n3 + n4 + n5
    match fromClause s5 with
    | some (g2, more) => some ((g1, some g2), head + more)
    | none => some ((g1, none), head)
  else none

/-- export star from SOURCE: captures the module specifier. -/
def exportAllM : Matcher (List Char) := fun prev s =>
  if wordBoundary prev then do
    let (n1, s1) ← takeLit "export".data s
    let (n2, s2) ← takeSpaces1 s1
    let (n3, s3) ← takeLit ['*'] s2
    let (g1, more) ← fromClause s3
    some (g1, n1 + n2 + n3 + more)
  else none

/-- import brace-list from SOURCE, excluding import type: captures the
raw name list and the module specifier. -/
def namedImportM : Matcher (List Char × List Char) := fun prev s =>
  if wordBoundary prev then do
    let (n1, s1) ← takeLit "import".data s
    let (n2, s2) ← takeSpaces1 s1
    if typeAhead s2 then none
    else do
      let (n3, s3) ← takeLit ['{'] s2
      let (g1, n4, s4) ← captureWhile1 (fun c => c != '}') s3
      let (n5, s5) ← takeLit ['}'] s4
      let (g2, more) ← fromClause s5
      some ((g1, g2), n1 + n2 + n3 + n4 + n5 + more)
  else none

/-- default import (import NAME from SOURCE), excluding import type:
captures the binding name and the module specifier. -/
def defaultImportM : Matcher (String × List Char) := fun prev s =>
  if wordBoundary prev then do
    let (n1, s1) ← takeLit "import".data s
    let (n2, s2) ← takeSpaces1 s1
    if typeAhead s2 then none
    else do
      let (idc, n3, s3) ← takeIdent s2
      let (g2, more) ← fromClause s3
      some (((⟨idc⟩ : String), g2), n1 + n2 + n3 + more)
  else none

/-- namespace import (import star as NAME from SOURCE): captures the
module specifier. -/
def namespaceImportM : Matcher (List Char) := fun prev s =>
  if wordBoundary prev then do
    let (n1, s1) ← takeLit "import".data s
    let (n2, s2) ← takeSpaces1 s1
    let (n3, s3) ← takeLit ['*'] s2
    let (n4, s4) ← takeSpaces1 s3
    let (n5, s5) ← takeLit "as".data s4
    let (n6, s6) ← takeSpaces1 s5
    let (_, n7, s7) ← takeIdent s6
    let (g1, more) ← fromClause s7
    some (g1, n1 + n2 + n3 + n4 + n5 + n6 + n7 + more)
  else none

/-- JS String.prototype.trim over a character list. -/
def trimL (s : List Char) : List Char :=
  ((s.dropWhile isSpaceJS).reverse.dropWhile isSpaceJS).reverse

/-- Match the separator of the rename split (spaces, the keyword as,
spaces) at the head of the suffix. -/
def asSepAt (s : List Char) : Option (Nat × List Char) := do
  let (n1, s1) ← takeSpaces1 s
  let (n2, s2) ← takeLit "as".data s1
  let (n3, s3) ← takeSpaces1 s2
  some (n1 + n2 + n3, s3)

/-- JS split on the rename separator regex, by leftmost match; fuel keeps
the recursion structural and is never exhausted. -/
def splitAsGo : Nat → List Char → List Char → List (List Char)
  | 0, acc, _ => [acc.reverse]
  | _, acc, [] => [acc.reverse]
  | fuel + 1, acc, c :: rest =>
    match asSepAt (c :: rest) with
    | some (n, _) => acc.reverse :: splitAsGo fuel [] ((c :: rest).drop (max n 1))
    | none => splitAsGo fuel (c :: acc) rest

def splitAsSep (s : List Char) : List (List Char) :=
  splitAsGo s.length [] s

/-- One piece of an export brace list: trim, split on the rename
separator, take the last component (the exported name), trim. -/
def exportedNameOfPiece (piece : List Char) : String :=
  ⟨trimL ((splitAsSep (trimL piece)).getLast?.getD [])⟩

/-- One piece of a brace list on the importing side: trim, split on the
rename separator, take the first component (the local name), trim. -/
def localNameOfPiece (piece : List Char) : String :=
  ⟨trimL ((splitAsSep (trimL piece)).head?.getD [])⟩

def braceExportNames (g1 : List Char) : List String :=
  (splitOnCharL ',' g1).map exportedNameOfPiece

def braceLocalNames (g1 : List Char) : List String :=
  (splitOnCharL ',' g1).map localNameOfPiece

/-- The inCode helper: a match offset is accepted when the normalized
text does not hold a blank at it (out of range counts as accepted, as in
the source where an undefined index passes). -/
def inCode (stripped : List Char) (i : Nat) : Bool :=
  stripped[i]? != some ' '

/-- The matches of one pattern that pass the inCode gate. -/
def acceptedMatches (m : Matcher α) (text stripped : List Char) : List (Nat × α) :=
  (scanAll m text).filter (fun p => inCode stripped p.1)

/-- JS Set.prototype.add over an insertion-ordered list. -/
def setAdd (l : List String) (x : String) : List String :=
  if x ∈ l then l else l ++ [x]

/-- An ImportRecord: the consumed name and the resolved source file. -/
structure ImportRecord where
  importedName : String
  sourceFile : String
deriving DecidableEq

/-- extractExportsAndImportsViaRegex from src/analyzers/exports.ts: the
regex-based fallback, run over the raw content with match offsets gated
against the normalized text (patterns for declarations and type exports
scan the normalized text itself). -/
def extractExportsAndImportsViaRegex (fs : FS) (content stripped : List Char)
    (file : String) (fe0 : List String) (fi0 : List ImportRecord) :
    List String × List ImportRecord :=
  let fe := if ¬ (scanAll exportDefaultM stripped).isEmpty then setAdd fe0 "default" else fe0
  let fe := (acceptedMatches namedExportDeclM stripped stripped).foldl
    (fun acc p => setAdd acc p.2) fe
  let braceMs := acceptedMatches exportBraceM content stripped
  let fe := braceMs.foldl
    (fun acc p => (braceExportNames p.2.1).foldl
      (fun a n => if n ≠ "" then setAdd a n else a) acc) fe
  let fi := braceMs.foldl
    (fun acc p =>
      match p.2.2 with
      | some src => (braceLocalNames p.2.1).foldl
          (fun a n => if n ≠ "" then
            a ++ [⟨n, resolveImportPath fs file ⟨src⟩⟩] else a) acc
      | none => acc) fi0
  let allMs := acceptedMatches exportAllM content stripped
  let fe := allMs.foldl (fun acc p => setAdd acc ("* from " ++ (⟨p.2⟩ : String))) fe
  let fi := allMs.foldl
    (fun acc p => acc ++ [⟨"*", resolveImportPath fs file ⟨p.2⟩⟩]) fi
  let fe := (acceptedMatches tsExportTypeM stripped stripped).foldl
    (fun acc p => setAdd acc p.2) fe
  let fi := (acceptedMatches namedImportM content stripped).foldl
    (fun acc p => (braceLocalNames p.2.1).foldl
      (fun a n => if n ≠ "" then
        a ++ [⟨n, resolveImportPath fs file ⟨p.2.2⟩⟩] else a) acc) fi
  let fi := (acceptedMatches defaultImportM content stripped).foldl
    (fun acc p => acc ++ [⟨"default", resolveImportPath fs file ⟨p.2.2⟩⟩]) fi
  let fi := (acceptedMatches namespaceImportM content stripped).foldl
    (fun acc p => acc ++ [⟨"*", resolveImportPath fs file ⟨p.2⟩⟩]) fi
  (fe, fi)

/-- JS truthiness for an optional string field: undefined and the empty
string are falsy. -/
def jsTruthy : Option String → Option String
  | some s => if s = "" then none else some s
  | none => none

/-- JS or-else over optional string fields (used and empty-string values
fall through, as in spec.exported?.name or-else spec.local?.name). -/
def jsOr : Option String → Option String → Option String
  | some n, b => if n = "" then b else some n
  | none, b => b

/-- The fields of an acorn export specifier the handlers inspect:
spec.exported?.name and spec.local?.name. -/
structure ExportSpecifier where
  exported : Option String
  localName : Option String
deriving DecidableEq

/-- The acorn import specifier shapes the handlers dispatch on. -/
inductive ImportSpecifier where
  | importSpec (imported : Option String)
  | importDefault
  | importNamespace
deriving DecidableEq

/-- The AST node shapes walk.simple dispatches on in buildExportGraph.
declNames abstracts the names read from node.declaration (the variable
declarator ids, or the single id of a function or class declaration). -/
inductive ModuleNode where
  | exportNamed (specifiers : List ExportSpecifier) (declNames : List String)
      (source : Option String)
  | exportDefault
  | exportAll (source : Option String)
  | importDecl (specifiers : List ImportSpecifier) (source : Option String)
deriving DecidableEq

/-- One iteration of the loop over node.specifiers in the
ExportNamedDeclaration handler: record the exported name, and for a
re-export (a truthy node.source) also record an import of the local name
from the resolved source. -/
def processExportSpecifier (fs : FS) (file : String) (source : Option String)
    (st : List String × List ImportRecord) (spec : ExportSpecifier) :
    List String × List ImportRecord :=
  let st1 :=
    match jsTruthy (jsOr spec.exported spec.localName) with
    | some n => (setAdd st.1 n, st.2)
    | none => st
  match source, jsTruthy spec.localName with
  | some src, some localName =>
    (st1.1, st1.2 ++ [⟨localName, resolveImportPath fs file src⟩])
  | _, _ => st1

/-- The walk.simple handlers of buildExportGraph, folded over the module
nodes in source order. -/
def processNode (fs : FS) (file : String) (st : List String × List ImportRecord)
    (node : ModuleNode) : List String × List ImportRecord :=
  match node with
  | .exportNamed specifiers declNames source =>
    let st := specifiers.foldl (processExportSpecifier fs file (jsTruthy source)) st
    (declNames.foldl setAdd st.1, st.2)
  | .exportDefault => (setAdd st.1 "default", st.2)
  | .exportAll source =>
    match jsTruthy source with
    | some src =>
      (setAdd st.1 ("* from " ++ src), st.2 ++ [⟨"*", resolveImportPath fs file src⟩])
    | none => st
  | .importDecl specifiers source =>
    match jsTruthy source with
    | none => st
    | some src =>
      specifiers.foldl (fun st spec =>
        match spec with
        | .importSpec imported =>
          match jsTruthy imported with
          | some importedName =>
            (st.1, st.2 ++ [⟨importedName, resolveImportPath fs file src⟩])
          | none => st
        | .importDefault =>
          (st.1, st.2 ++ [⟨"default", resolveImportPath fs file src⟩])
        | .importNamespace =>
          (st.1, st.2 ++ [⟨"*", resolveImportPath fs file src⟩])) st

/-- Extraction of one file: the primary parse when it succeeds, else the
regex fallback over raw and normalized text. -/
def extractFacts (fs : FS) (parse : String → Option (List ModuleNode))
    (file content : String) : List String × List ImportRecord :=
  match parse content with
  | some nodes => nodes.foldl (processNode fs file) ([], [])
  | none => extractExportsAndImportsViaRegex fs content.data (stripL content.data) file [] []

/-- Insertion-ordered association list modelling a JS Map. -/
def lookupA {α : Type} : List (String × α) → String → Option α
  | [], _ => none
  | (k, v) :: t, key => if k = key then some v else lookupA t key

/-- Map.set: replace in place when the key exists, else append. -/
def updateA {α : Type} : List (String × α) → String → α → List (String × α)
  | [], key, v => [(key, v)]
  | (k, w) :: t, key, v =>
    if k = key then (key, v) :: t else (k, w) :: updateA t key v

/-- The export graph: per-file exported names and import records. -/
structure ExportGraph where
  exports : List (String × List String)
  imports : List (String × List ImportRecord)
deriving DecidableEq

/-- One iteration of the file loop of buildExportGraph: a file whose read
throws contributes nothing (the catch skips it); otherwise its extracted
facts are stored under its path. -/
def processFile (fs : FS) (parse : String → Option (List ModuleNode))
    (st : ExportGraph) (file : String) : ExportGraph :=
  match fs.readFile file with
  | none => st
  | some content =>
    let facts := extractFacts fs parse file content
    ⟨updateA st.exports file facts.1, updateA st.imports file facts.2⟩

/-- buildExportGraph from src/analyzers/exports.ts. -/
def buildExportGraph (fs : FS) (parse : String → Option (List ModuleNode))
    (files : List String) (projectPath : String) : ExportGraph :=
  files.foldl (processFile fs parse) ⟨[], []⟩

/-- JS String.prototype.includes over character lists. -/
def listContainsSub (sub : List Char) : List Char → Bool
  | [] => sub.isEmpty
  | c :: t => sub.isPrefixOf (c :: t) || listContainsSub sub t

/-- Scan the lines for the first one containing both the word export and
the export name, returning its one-based number, else zero. -/
def getExportLineGo (exportName : String) : List (List Char) → Nat → Nat
  | [], _ => 0
  | line :: rest, i =>
    if listContainsSub "export".data line && listContainsSub exportName.data line then i
    else getExportLineGo exportName rest (i + 1)

/-- getExportLine from src/analyzers/exports.ts; a file whose read throws
yields line zero. -/
def getExportLine (fs : FS) (file exportName : String) : Nat :=
  match fs.readFile file with
  | none => 0
  | some content => getExportLineGo exportName (splitOnCharL '\n' content.data) 1

/-- The allImports accumulation of findUnusedExports: source file to the
set of names imported from it, over every import record of the graph. -/
def buildAllImports (entries : List (String × List ImportRecord)) :
    List (String × List String) :=
  entries.foldl (fun m e =>
    e.2.foldl (fun m r =>
      updateA m r.sourceFile (setAdd ((lookupA m r.sourceFile).getD []) r.importedName)) m) []

def usedNames (g : ExportGraph) (file : String) : List String :=
  (lookupA (buildAllImports g.imports) file).getD []

/-- The isUsed test of findUnusedExports: the exact name is imported, or
a namespace import of the file exists, or the name is default and a
default import of the file exists. -/
def isUsedExport (g : ExportGraph) (file exportName : String) : Bool :=
  let u := usedNames g file
  u.contains exportName || u.contains "*" ||
    (exportName = "default" && u.contains "default")

/-- One unused-export record: file, export name, best-effort line. -/
structure UnusedExport where
  file : String
  exportName : String
  line : Nat
deriving DecidableEq

/-- findUnusedExports from src/analyzers/exports.ts. -/
def findUnusedExports (fs : FS) (g : ExportGraph) (files : List String)
    (projectPath : String) : List UnusedExport :=
  g.exports.flatMap (fun e =>
    (e.2.filter (fun n => !strStartsWith n "*" && !isUsedExport g e.1 n)).map
      (fun n => ⟨e.1, n, getExportLine fs e.1 n⟩))

/-- Lexicographic comparison of character lists, modelling the default
JS Array sort comparison on strings. -/
def listCharLe : List Char → List Char → Bool
  | [], _ => true
  | _ :: _, [] => false
  | a :: as, b :: bs => if a = b then listCharLe as bs else decide (a < b)

def strLe (a b : String) : Bool :=
  listCharLe a.data b.data

/-- Insertion sort on strings with the JS comparison. -/
def insertStr (x : String) : List String → List String
  | [] => [x]
  | y :: t => if strLe x y then x :: y :: t else y :: insertStr x t

def sortStrings : List String → List String
  | [] => []
  | x :: t => insertStr x (sortStrings t)

/-- The deduplication key of a cycle: the project-root-relative member
paths, sorted and joined with a bar. -/
def canonicalCycleKey (projectPath : String) (cycle : List String) : String :=
  ⟨listIntercalate ['|'] ((sortStrings (cycle.map (relativePath projectPath))).map String.data)⟩

/-- The adjacency map of findCircularDependencies: per importing file,
the insertion-ordered set of imported files that are themselves in the
analyzed file list. -/
def buildAdjacency (g : ExportGraph) (files : List String) :
    List (String × List String) :=
  g.imports.foldl (fun adj e =>
    updateA adj e.1 (e.2.foldl (fun deps r =>
      if files.contains r.sourceFile then setAdd deps r.sourceFile else deps) [])) []

/-- The mutable state threaded through the depth-first search: visited
set, reported canonical keys, and found cycles in discovery order. -/
structure DfsState where
  visited : List String
  reported : List String
  cycles : List (List String)
deriving DecidableEq

/-- The recursive dfs of findCircularDependencies.  The current path and
the on-stack set are passed downward (the source restores them on exit);
visited, reported keys and cycles are threaded.  The fuel argument keeps
the recursion structural; the caller supplies one more than the number of
files, which is never exhausted because every recursive call pushes a
distinct file onto the stack. -/
def dfsCycles (adj : List (String × List String)) (projectPath : String) :
    Nat → String → List String → List String → DfsState → DfsState
  | 0, _, _, _, st => st
  | fuel + 1, node, path, inStack, st =>
    if inStack.contains node then
      let cycleStart := path.indexOf node
      if cycleStart < path.length then
        let cycle := path.drop cycleStart
        let key := canonicalCycleKey projectPath cycle
        if st.reported.contains key then st
        else { st with reported := st.reported ++ [key], cycles := st.cycles ++ [cycle] }
      else st
    else if st.visited.contains node then st
    else
      let st := ((lookupA adj node).getD []).foldl
        (fun s dep => dfsCycles adj projectPath fuel dep (path ++ [node]) (node :: inStack) s) st
      { st with visited := st.visited ++ [node] }

/-- findCircularDependencies from src/analyzers/exports.ts. -/
def findCircularDependencies (g : ExportGraph) (files : List String)
    (projectPath : String) : List (List String) :=
  let adj := buildAdjacency g files
  (files.foldl (fun (st : DfsState) file =>
      if st.visited.contains file then st
      else dfsCycles adj projectPath (files.length + 1) file [] [] st)
    ⟨[], [], []⟩).cycles

/-! ### Issue assembly (analyzeUnusedExports) -/
def strToLower (s : String) : String :=
  ⟨s.data.map Char.toLower⟩

def entryPatterns : List String :=
  ["src/index.", "src/main.", "src/app.", "index.", "main."]

/-- isEntryPoint from src/analyzers/exports.ts: the lowercased
project-root-relative path matches one of the anchored entry patterns. -/
def isEntryPoint (file projectPath : String) : Bool :=
  let relPath := strToLower (relativePath projectPath file)
  entryPatterns.any (fun p => strStartsWith relPath p)

structure Suggestion where
  title : String
  description : String
deriving DecidableEq

/-- A finding; issueType stands for the type field of the source. -/
structure TreeShakingIssue where
  issueType : String
  severity : String
  file : String
  line : Option Nat
  pattern : String
  description : String
  estimatedImpact : Nat
  suggestion : Option Suggestion
deriving DecidableEq

/-- A single quote character as a string. -/
def squote : String :=
  String.singleton '\''

/-- The unused-export issue pushed by analyzeUnusedExports. -/
def mkUnusedIssue (projectPath file exportName : String) (line : Nat) :
    TreeShakingIssue :=
  { issueType := "unused-export"
    severity := "low"
    file := relativePath projectPath file
    line := some line
    pattern := "export " ++ exportName
    description := squote ++ exportName ++ squote ++
      " is exported but never imported in the analyzed codebase."
    estimatedImpact := 500
    suggestion := some ⟨"Remove unused export",
      "If " ++ squote ++ exportName ++ squote ++
        " is not used externally, consider removing it or marking it as internal."⟩ }

/-- The circular-dependency issue pushed by analyzeUnusedExports. -/
def mkCycleIssue (projectPath : String) (cycle : List String) : TreeShakingIssue :=
  let relFiles := cycle.map (relativePath projectPath)
  let cycleStr : String :=
    ⟨listIntercalate " → ".data (relFiles.map String.data)⟩ ++ " → " ++ (relFiles.headD "")
  { issueType := "circular-dependency"
    severity := if cycle.length ≤ 2 then "high" else "critical"
    file := relFiles.headD ""
    line := none
    pattern := "circular: " ++ toString relFiles.length ++ " files"
    description := "Circular dependency detected: " ++ cycleStr ++
      ". Circular imports can prevent bundlers from properly tree-shaking modules in the cycle."
    estimatedImpact := cycle.length * 2000
    suggestion := some ⟨"Break the dependency cycle",
      "Extract shared code into a separate module that both files can import from, or restructure the imports to remove the cycle."⟩ }

/-- analyzeUnusedExports from src/analyzers/exports.ts: build the graph,
report non-entry-point unused exports, then report circular
dependencies. -/
def analyzeUnusedExports (fs : FS) (parse : String → Option (List ModuleNode))
    (files : List String) (projectPath : String) : List TreeShakingIssue :=
  let graph := buildExportGraph fs parse files projectPath
  let unused := findUnusedExports fs graph files projectPath
  let unusedIssues := (unused.filter (fun u => !isEntryPoint u.file projectPath)).map
    (fun u => mkUnusedIssue projectPath u.file u.exportName u.line)
  let cycles := findCircularDependencies graph files projectPath
  unusedIssues ++ cycles.map (mkCycleIssue projectPath)

/-- An empty filesystem snapshot. -/
def fsNone : FS := ⟨fun _ => false, fun _ => false, fun _ => none⟩

/-- A snapshot with one readable file and one unreadable path. -/
def fsC9 : FS :=
  ⟨fun p => p = "/r/s/c.ts", fun _ => false,
    fun p => if p = "/r/s/c.ts" then some "export const bar = 1" else none⟩

/-- One step of the allImports accumulation. -/
def allImportsStep (m : List (String × List String)) (r : ImportRecord) :
    List (String × List String) :=
  updateA m r.sourceFile (setAdd ((lookupA m r.sourceFile).getD []) r.importedName)

/-- Modelled from the claim C1 wording of the used predicate: some
ImportRecord resolving to the file consumes the exact name, or a
namespace import of the file exists, or the name is default and a
default import of the file exists. -/
def usedPerClaim (g : ExportGraph) (F E : String) : Prop :=
  ∃ e ∈ g.imports, ∃ r ∈ e.2, r.sourceFile = F ∧
    (r.importedName = E ∨ r.importedName = "*" ∨
      (E = "default" ∧ r.importedName = "default"))

/-- Snapshot for the witness scenario of the unused-export analysis. -/
def fsC1 : FS :=
  ⟨fun p => p = "/r/lib/c.ts", fun _ => false,
    fun p => if p = "/r/lib/c.ts" then some "export const bar = 1" else none⟩

/-- Parse result for the witness scenario: one exported declaration. -/
def parseC1 : String → Option (List ModuleNode) :=
  fun _ => some [.exportNamed [] ["bar"] none]

/-- The dfs invariant: every found cycle's canonical key has been
reported, and the canonical keys of the found cycles are pairwise
distinct. -/
def cyclesInv (pp : String) (st : DfsState) : Prop :=
  (∀ c ∈ st.cycles, canonicalCycleKey pp c ∈ st.reported) ∧
  (st.cycles.map (canonicalCycleKey pp)).Nodup

/-- Snapshot for the witness scenario of the re-export claim. -/
def fsC2 : FS :=
  ⟨fun p => p = "/r/lib/a.ts" || p = "/r/lib/b.ts", fun _ => false,
    fun p => if p = "/r/lib/b.ts" then some "B" else
      if p = "/r/lib/a.ts" then some "A" else none⟩

/-- Parse result for the witness scenario: one re-export declaration. -/
def parseC2 : String → Option (List ModuleNode) :=
  fun c => if c = "B" then
    some [.exportNamed [⟨some "X", some "X"⟩] [] (some "./a.ts")] else some []

/-- An import statement beginning with the keyword import, whitespace,
then the keyword type followed by a word boundary, at a position opening
on a word boundary. -/
def importTypeAt (prev : Option Char) (s : List Char) : Bool :=
  wordBoundary prev &&
    (match takeLit "import".data s with
     | some (_, s1) =>
       (match takeSpaces1 s1 with
        | some (_, s2) => typeAhead s2
        | none => false)
     | none => false)

/-- Snapshot for the type-only import scenario: file a exports x, file b
consumes it only through a type-only import. -/
def fsC10 : FS :=
  ⟨fun p => p = "/r/lib/a.ts" || p = "/r/lib/b.ts", fun _ => false,
    fun p => if p = "/r/lib/a.ts" then some "export {x}" else
      if p = "/r/lib/b.ts" then some "import type {x} from './a.ts'" else none⟩

/-! ### Theorems -/

theorem resolveIndexFile_eq_none (fs : FS) (hwf : WFfs fs) (d : String)
    (hd : fs.isDir d = false) : resolveIndexFile fs d = none := by
  apply List.find?_eq_none.2
  intro p hp
  simp only [List.mem_map] at hp
  obtain ⟨ext, hext, rfl⟩ := hp
  intro hex
  exact absurd (hwf.2 d ext hext hex) (by simp [hd])

/-- C4: module resolution is deterministic: against equal filesystem
snapshots (pointwise equal existence and directory queries), the resolver
returns the identical resolved path for the same importing file and
specifier, so identical inputs always canonicalize to the identical
graph node key. -/
theorem resolveImportPath_deterministic (fs₁ fs₂ : FS)
    (h1 : ∀ p, fs₁.isFile p = fs₂.isFile p) (h2 : ∀ p, fs₁.isDir p = fs₂.isDir p)
    (fromFile importPath : String) :
    resolveImportPath fs₁ fromFile importPath = resolveImportPath fs₂ fromFile importPath := by
  obtain ⟨i1, d1, r1⟩ := fs₁
  obtain ⟨i2, d2, r2⟩ := fs₂
  have hi : i1 = i2 := funext fun p => h1 p
  have hd : d1 = d2 := funext fun p => h2 p
  subst hi
  subst hd
  rfl

theorem resolveImportPath_deterministic_witness :
    resolveImportPath ⟨fun _ => false, fun _ => false, fun _ => none⟩ "/a/b.ts" "./c" =
      resolveImportPath ⟨fun _ => false, fun _ => false, fun _ => some ""⟩ "/a/b.ts" "./c" :=
  resolveImportPath_deterministic _ _ (fun _ => rfl) (fun _ => rfl) "/a/b.ts" "./c"

/-- C5: the resolver follows the five ordered steps of the specification:
whenever the spec-side cascade resolves, the code returns the same path,
and when the cascade reports EXTERNAL the code returns the unresolved
string (the literal resolved path, which does not exist in the snapshot,
for a relative specifier; the specifier itself for a bare one), which the
engine treats as external. -/
theorem resolveImportPath_follows_spec (fs : FS) (hwf : WFfs fs)
    (fromFile importPath : String) :
    (∀ p, resolveImportPathSpec fs fromFile importPath = some p →
      resolveImportPath fs fromFile importPath = p) ∧
    (resolveImportPathSpec fs fromFile importPath = none →
      if strStartsWith importPath "." then
        resolveImportPath fs fromFile importPath = resolvePath (dirname fromFile) importPath ∧
        existsSync fs (resolveImportPath fs fromFile importPath) = false
      else resolveImportPath fs fromFile importPath = importPath) := by
  by_cases hrel : strStartsWith importPath "." = true
  case neg =>
    rw [Bool.not_eq_true] at hrel
    constructor
    · intro p hp
      simp [resolveImportPathSpec, hrel] at hp
    · intro _
      simp [resolveImportPath, hrel]
  case pos =>
    have hrw : ∀ q, resolvePath (dirname fromFile) importPath = q →
        (∀ p, resolveImportPathSpec fs fromFile importPath = some p →
          resolveImportPath fs fromFile importPath = p) ∧
        (resolveImportPathSpec fs fromFile importPath = none →
          if strStartsWith importPath "." then
            resolveImportPath fs fromFile importPath = resolvePath (dirname fromFile) importPath ∧
            existsSync fs (resolveImportPath fs fromFile importPath) = false
          else resolveImportPath fs fromFile importPath = importPath) := by
      intro r hr
      cases hD : fs.isDir r
      case true =>
        have hF : fs.isFile r = false := by
          cases hc : fs.isFile r
          · rfl
          · exact absurd ⟨hc, hD⟩ (hwf.1 r)
        have hex : existsSync fs r = true := by simp [existsSync, hD]
        constructor
        · intro p hp
          simp only [resolveImportPathSpec, hrel, if_true, hr, hF, hD,
            Bool.false_eq_true, if_false, Option.some.injEq] at hp
          simp only [resolveImportPath, hrel, if_true, hr, hex, hD, if_true]
          exact hp
        · intro hp
          simp [resolveImportPathSpec, hrel, hr, hF, hD] at hp
      case false =>
        cases hF : fs.isFile r
        case true =>
          have hex : existsSync fs r = true := by simp [existsSync, hF]
          constructor
          · intro p hp
            simp only [resolveImportPathSpec, hrel, if_true, hr, hF, if_true,
              Option.some.injEq] at hp
            simp only [resolveImportPath, hrel, if_true, hr, hex, hD,
              Bool.false_eq_true, if_false, if_true]
            exact hp
          · intro hp
            simp [resolveImportPathSpec, hrel, hr, hF] at hp
        case false =>
          have hex : existsSync fs r = false := by simp [existsSync, hF, hD]
          have hidx : resolveIndexFile fs r = none := resolveIndexFile_eq_none fs hwf r hD
          cases hFind : (RESOLVE_EXTENSIONS.map (fun ext => r ++ ext)).find?
              (fun p => existsSync fs p)
          case some w =>
            constructor
            · intro p hp
              simp only [resolveImportPathSpec, hrel, if_true, hr, hF, hD,
                Bool.false_eq_true, if_false, hFind, Option.some.injEq] at hp
              simp only [resolveImportPath, hrel, if_true, hr, hex,
                Bool.false_eq_true, if_false, hFind]
              exact hp
            · intro hp
              simp [resolveImportPathSpec, hrel, hr, hF, hD, hFind] at hp
          case none =>
            have hcode : resolveImportPath fs fromFile importPath =
                (if strEndsWith r ".js" then
                  ([".ts", ".tsx", ".js"].map (fun ext => strDropRight r 3 ++ ext)).find?
                    (fun p => existsSync fs p)
                else if strEndsWith r ".jsx" then
                  ([".tsx", ".jsx"].map (fun ext => strDropRight r 4 ++ ext)).find?
                    (fun p => existsSync fs p)
                else none).getD r := by
              simp only [resolveImportPath, hrel, if_true, hr, hex,
                Bool.false_eq_true, if_false, hFind]
              cases hjs : strEndsWith r ".js"
              · cases hjsx : strEndsWith r ".jsx"
                · simp [hidx]
                · cases hFind2 : ([".tsx", ".jsx"].map (fun ext => strDropRight r 4 ++ ext)).find?
                      (fun p => existsSync fs p) <;> simp [hFind2, hidx]
              · cases hFind2 : ([".ts", ".tsx", ".js"].map (fun ext => strDropRight r 3 ++ ext)).find?
                    (fun p => existsSync fs p) <;> simp [hFind2, hidx]
            have hspec : resolveImportPathSpec fs fromFile importPath =
                (if strEndsWith r ".js" then
                  ([".ts", ".tsx", ".js"].map (fun ext => strDropRight r 3 ++ ext)).find?
                    (fun p => existsSync fs p)
                else if strEndsWith r ".jsx" then
                  ([".tsx", ".jsx"].map (fun ext => strDropRight r 4 ++ ext)).find?
                    (fun p => existsSync fs p)
                else none) := by
              simp only [resolveImportPathSpec, hrel, if_true, hr, hF, hD,
                Bool.false_eq_true, if_false, hFind]
            constructor
            · intro p hp
              rw [hspec] at hp
              rw [hcode, hp]
              rfl
            · intro hp
              rw [hspec] at hp
              rw [hcode, hp]
              simp only [Option.getD_none, hrel, if_true]
              exact ⟨hr.symm, hex⟩
    exact hrw (resolvePath (dirname fromFile) importPath) rfl

theorem resolveImportPath_follows_spec_witness :
    resolveImportPath ⟨fun _ => false, fun _ => false, fun _ => none⟩ "/a/b.ts" "./c" = "/a/c" ∧
      existsSync ⟨fun _ => false, fun _ => false, fun _ => none⟩ "/a/c" = false := by
  have hwf : WFfs ⟨fun _ => false, fun _ => false, fun _ => none⟩ :=
    ⟨fun p h => by simp at h, fun d ext _ h => by simp [existsSync] at h⟩
  have h := (resolveImportPath_follows_spec _ hwf "/a/b.ts" "./c").2 (by decide)
  rw [if_pos (by decide)] at h
  have hr : resolvePath (dirname "/a/b.ts") "./c" = "/a/c" := by decide
  exact ⟨h.1.trans hr, hr ▸ h.2⟩

theorem lineC_len (l : List Char) : (lineC l).1.length + (lineC l).2.length = l.length := by
  induction l with
  | nil => simp [lineC]
  | cons c rest ih =>
    simp only [lineC]
    split
    · simp
    · simp only [List.length_cons]
      omega

theorem blockC_len (l : List Char) : (blockC l).1.length + (blockC l).2.length = l.length := by
  induction l using blockC.induct with
  | case1 => simp [blockC]
  | case2 rest => simp [blockC] <;> omega
  | case3 c rest h ih =>
    simp only [blockC, List.length_cons]
    omega

theorem tmplC_len (l : List Char) (d : Nat) :
    (tmplC l d).1.length + (tmplC l d).2.length = l.length := by
  induction l, d using tmplC.induct with
  | case1 x => simp [tmplC]
  | case2 head rest d ih =>
    simp only [tmplC, List.length_cons]
    omega
  | case3 rest d ih =>
    simp only [tmplC, List.length_cons]
    omega
  | case4 c rest d h1 h2 hcond ih =>
    simp only [tmplC, List.length_cons]
    rw [if_pos hcond]
    simp only [List.length_cons]
    omega
  | case5 c rest d h1 h2 hne hcond =>
    simp only [tmplC, List.length_cons]
    rw [if_neg hne, if_pos hcond]
    simp <;> omega
  | case6 c rest d h1 h2 hne1 hne2 ih =>
    simp only [tmplC, List.length_cons]
    rw [if_neg hne1, if_neg hne2]
    simp only [List.length_cons]
    omega

theorem strC_len (l : List Char) (q : Char) :
    (strC l q).1.length + (strC l q).2.length = l.length := by
  induction l, q using strC.induct with
  | case1 x => simp [strC]
  | case2 head rest q ih =>
    simp only [strC, List.length_cons]
    omega
  | case3 rest q h1 => simp [strC] <;> omega
  | case4 rest q h1 hne =>
    simp only [strC, List.length_cons]
    rw [if_neg hne]
    simp <;> omega
  | case5 c rest q h1 hne1 hne2 ih =>
    simp only [strC, List.length_cons]
    rw [if_neg hne1, if_neg hne2]
    simp only [List.length_cons]
    omega

theorem lineC_snd_le (l : List Char) : (lineC l).2.length ≤ l.length := by
  have := lineC_len l
  omega

theorem blockC_snd_le (l : List Char) : (blockC l).2.length ≤ l.length := by
  have := blockC_len l
  omega

theorem tmplC_snd_le (l : List Char) (d : Nat) : (tmplC l d).2.length ≤ l.length := by
  have := tmplC_len l d
  omega

theorem strC_snd_le (l : List Char) (q : Char) : (strC l q).2.length ≤ l.length := by
  have := strC_len l q
  omega

theorem lineC_snd_drop (l : List Char) : (lineC l).2 = l.drop (lineC l).1.length := by
  induction l with
  | nil => simp [lineC]
  | cons c rest ih =>
    simp only [lineC]
    split
    · simp
    · simpa using ih

theorem blockC_snd_drop (l : List Char) : (blockC l).2 = l.drop (blockC l).1.length := by
  induction l using blockC.induct with
  | case1 => simp [blockC]
  | case2 rest => simp [blockC]
  | case3 c rest h ih => simpa [blockC] using ih

theorem tmplC_snd_drop (l : List Char) (d : Nat) :
    (tmplC l d).2 = l.drop (tmplC l d).1.length := by
  induction l, d using tmplC.induct with
  | case1 x => simp [tmplC]
  | case2 head rest d ih => simpa [tmplC] using ih
  | case3 rest d ih => simpa [tmplC] using ih
  | case4 c rest d h1 h2 hcond ih =>
    simp only [tmplC]
    rw [if_pos hcond]
    simpa using ih
  | case5 c rest d h1 h2 hne hcond =>
    simp only [tmplC]
    rw [if_neg hne, if_pos hcond]
    simp
  | case6 c rest d h1 h2 hne1 hne2 ih =>
    simp only [tmplC]
    rw [if_neg hne1, if_neg hne2]
    simpa using ih

theorem strC_snd_drop (l : List Char) (q : Char) :
    (strC l q).2 = l.drop (strC l q).1.length := by
  induction l, q using strC.induct with
  | case1 x => simp [strC]
  | case2 head rest q ih => simpa [strC] using ih
  | case3 rest q h1 => simp [strC]
  | case4 rest q h1 hne =>
    simp only [strC]
    rw [if_neg hne]
    simp
  | case5 c rest q h1 hne1 hne2 ih =>
    simp only [strC]
    rw [if_neg hne1, if_neg hne2]
    simpa using ih

theorem lineC_fst_blank (l : List Char) : ∀ c ∈ (lineC l).1, c = ' ' := by
  induction l with
  | nil => simp [lineC]
  | cons c rest ih =>
    simp only [lineC]
    split
    · simp
    · intro x hx
      simp only [List.mem_cons] at hx
      rcases hx with rfl | hx
      · rfl
      · exact ih x hx

theorem lineC_consumed_no_nl (l : List Char) :
    ∀ k, k < (lineC l).1.length → l[k]? ≠ some '\n' := by
  induction l with
  | nil => simp [lineC]
  | cons c rest ih =>
    by_cases hc : c = '\n'
    · simp [lineC, hc]
    · intro k hk
      cases k with
      | zero =>
        simp only [List.getElem?_cons_zero, ne_eq, Option.some.injEq]
        exact hc
      | succ k =>
        simp only [List.getElem?_cons_succ]
        refine ih k ?_
        simpa [lineC, hc] using hk

theorem blockC_nl_iff (l : List Char) :
    ∀ k, ((blockC l).1[k]? = some '\n' ↔ k < (blockC l).1.length ∧ l[k]? = some '\n') := by
  induction l using blockC.induct with
  | case1 => simp [blockC]
  | case2 rest =>
    intro k
    match k with
    | 0 => simp [blockC]
    | 1 => simp [blockC]
    | k + 2 => simp [blockC]
  | case3 c rest h ih =>
    intro k
    cases k with
    | zero =>
      simp only [blockC, List.getElem?_cons_zero, Option.some.injEq, List.length_cons]
      constructor
      · intro hh
        refine ⟨by omega, ?_⟩
        split at hh
        · simp [*]
        · exact absurd hh (by decide)
      · rintro ⟨-, hh⟩
        rw [hh]
        simp
    | succ k =>
      simp only [blockC, List.getElem?_cons_succ, List.length_cons]
      rw [ih k]
      constructor
      · rintro ⟨h1, h2⟩
        exact ⟨by omega, h2⟩
      · rintro ⟨h1, h2⟩
        exact ⟨by omega, h2⟩

theorem tmplC_nl_sound (l : List Char) (d : Nat) :
    ∀ k : Nat, (tmplC l d).1[k]? = some '\n' → l[k]? = some '\n' := by
  induction l, d using tmplC.induct with
  | case1 x => simp [tmplC]
  | case2 head rest d ih =>
    intro k
    match k with
    | 0 => simp [tmplC]
    | 1 => simp [tmplC]
    | k + 2 =>
      simp only [tmplC, List.getElem?_cons_succ]
      exact ih k
  | case3 rest d ih =>
    intro k
    match k with
    | 0 => simp [tmplC]
    | 1 => simp [tmplC]
    | k + 2 =>
      simp only [tmplC, List.getElem?_cons_succ]
      exact ih k
  | case4 c rest d h1 h2 hcond ih =>
    intro k
    cases k with
    | zero =>
      simp only [tmplC]
      rw [if_pos hcond]
      simp only [List.getElem?_cons_zero, Option.some.injEq]
      intro hh
      exact absurd hh (by decide)
    | succ k =>
      simp only [tmplC, List.getElem?_cons_succ]
      rw [if_pos hcond]
      simp only [List.getElem?_cons_succ]
      exact ih k
  | case5 c rest d h1 h2 hne hcond =>
    intro k
    simp only [tmplC]
    rw [if_neg hne, if_pos hcond]
    rcases k with _ | k <;> simp
  | case6 c rest d h1 h2 hne1 hne2 ih =>
    intro k
    cases k with
    | zero =>
      simp only [tmplC]
      rw [if_neg hne1, if_neg hne2]
      simp only [List.getElem?_cons_zero, Option.some.injEq]
      intro hh
      split at hh
      · simp [*]
      · exact absurd hh (by decide)
    | succ k =>
      simp only [tmplC]
      rw [if_neg hne1, if_neg hne2]
      simp only [List.getElem?_cons_succ]
      exact ih k

theorem tmplC_nl_complete (l : List Char) (d : Nat) (hnb : '\\' ∉ l) :
    ∀ k : Nat, k < (tmplC l d).1.length → l[k]? = some '\n' → (tmplC l d).1[k]? = some '\n' := by
  induction l, d using tmplC.induct with
  | case1 x => simp [tmplC]
  | case2 head rest d ih => exact absurd (by simp) hnb
  | case3 rest d ih =>
    intro k
    match k with
    | 0 => simp
    | 1 => simp
    | k + 2 =>
      simp only [tmplC, List.getElem?_cons_succ, List.length_cons]
      intro hk
      exact ih (fun hc => hnb (by simp [hc])) k (by omega)
  | case4 c rest d h1 h2 hcond ih =>
    intro k
    cases k with
    | zero =>
      simp only [List.getElem?_cons_zero, Option.some.injEq]
      intro _ hh
      exact absurd (hh ▸ hcond.1) (by decide)
    | succ k =>
      simp only [tmplC, List.getElem?_cons_succ, List.length_cons]
      rw [if_pos hcond]
      simp only [List.getElem?_cons_succ, List.length_cons]
      intro hk
      exact ih (fun hc => hnb (by simp [hc])) k (by omega)
  | case5 c rest d h1 h2 hne hcond =>
    intro k
    simp only [tmplC]
    rw [if_neg hne, if_pos hcond]
    match k with
    | 0 =>
      simp only [List.getElem?_cons_zero, Option.some.injEq, List.length_singleton]
      intro _ hh
      exact absurd (hh ▸ hcond.1) (by decide)
    | k + 1 => simp
  | case6 c rest d h1 h2 hne1 hne2 ih =>
    intro k
    cases k with
    | zero =>
      simp only [tmplC, List.getElem?_cons_zero, Option.some.injEq]
      rw [if_neg hne1, if_neg hne2]
      intro _ hh
      simp [hh]
    | succ k =>
      simp only [tmplC, List.getElem?_cons_succ, List.length_cons]
      rw [if_neg hne1, if_neg hne2]
      simp only [List.getElem?_cons_succ, List.length_cons]
      intro hk
      exact ih (fun hc => hnb (by simp [hc])) k (by omega)

theorem tmplC_fst_blank (l : List Char) (d : Nat) :
    ∀ c ∈ (tmplC l d).1, c = ' ' ∨ c = '\n' := by
  induction l, d using tmplC.induct with
  | case1 x => simp [tmplC]
  | case2 head rest d ih =>
    simp only [tmplC, List.mem_cons]
    rintro x (rfl | rfl | hx)
    · left; rfl
    · left; rfl
    · exact ih x hx
  | case3 rest d ih =>
    simp only [tmplC, List.mem_cons]
    rintro x (rfl | rfl | hx)
    · left; rfl
    · left; rfl
    · exact ih x hx
  | case4 c rest d h1 h2 hcond ih =>
    simp only [tmplC]
    rw [if_pos hcond]
    simp only [List.mem_cons]
    rintro x (rfl | hx)
    · left; rfl
    · exact ih x hx
  | case5 c rest d h1 h2 hne hcond =>
    simp only [tmplC]
    rw [if_neg hne, if_pos hcond]
    simp
  | case6 c rest d h1 h2 hne1 hne2 ih =>
    simp only [tmplC]
    rw [if_neg hne1, if_neg hne2]
    simp only [List.mem_cons]
    rintro x (rfl | hx)
    · split
      · right; rfl
      · left; rfl
    · exact ih x hx

theorem strC_nl_sound (l : List Char) (q : Char) :
    ∀ k : Nat, (strC l q).1[k]? = some '\n' → l[k]? = some '\n' := by
  induction l, q using strC.induct with
  | case1 x => simp [strC]
  | case2 head rest q ih =>
    intro k
    match k with
    | 0 => simp [strC]
    | 1 => simp [strC]
    | k + 2 =>
      simp only [strC, List.getElem?_cons_succ]
      exact ih k
  | case3 rest q h1 =>
    intro k
    simp only [strC, if_true]
    rcases k with _ | k <;> simp
  | case4 rest q h1 hne =>
    intro k
    simp only [strC]
    rw [if_neg hne]
    simp only [if_true]
    rcases k with _ | k <;> simp
  | case5 c rest q h1 hne1 hne2 ih =>
    intro k
    cases k with
    | zero =>
      simp only [strC]
      rw [if_neg hne1, if_neg hne2]
      simp
    | succ k =>
      simp only [strC, List.getElem?_cons_succ]
      rw [if_neg hne1, if_neg hne2]
      simp only [List.getElem?_cons_succ]
      exact ih k

theorem strC_nl_complete (l : List Char) (q : Char) (hq : q ≠ '\n') (hnb : '\\' ∉ l) :
    ∀ k : Nat, k < (strC l q).1.length → l[k]? = some '\n' → (strC l q).1[k]? = some '\n' := by
  induction l, q using strC.induct with
  | case1 x => simp [strC]
  | case2 head rest q ih => exact absurd (by simp) hnb
  | case3 rest q h1 =>
    intro k
    simp only [strC, if_true]
    match k with
    | 0 =>
      simp only [List.getElem?_cons_zero, Option.some.injEq, List.length_singleton]
      intro _ hh
      exact absurd hh hq
    | k + 1 => simp
  | case4 rest q h1 hne =>
    intro k
    simp only [strC]
    rw [if_neg hne]
    simp only [if_true]
    match k with
    | 0 => simp
    | k + 1 => simp
  | case5 c rest q h1 hne1 hne2 ih =>
    intro k
    cases k with
    | zero =>
      simp only [List.getElem?_cons_zero, Option.some.injEq]
      intro _ hh
      exact absurd hh hne2
    | succ k =>
      simp only [strC, List.getElem?_cons_succ, List.length_cons]
      rw [if_neg hne1, if_neg hne2]
      simp only [List.getElem?_cons_succ, List.length_cons]
      intro hk
      exact ih hq (fun hc => hnb (by simp [hc])) k (by omega)

theorem stripGo_length (fuel : Nat) (l : List Char) (h : l.length ≤ fuel) :
    (stripGo fuel l).length = l.length := by
  induction fuel, l using stripGo.induct with
  | case1 x =>
    simp only [List.length_nil, Nat.le_zero] at h
    simp [stripGo]
    omega
  | case2 t ht => simp [stripGo]
  | case3 fuel rest ih =>
    have hlen := lineC_len rest
    have hle := lineC_snd_le rest
    simp only [List.length_cons] at h
    simp only [stripGo, List.length_cons, List.length_append]
    rw [ih (by omega)]
    omega
  | case4 fuel rest ih =>
    have hlen := blockC_len rest
    have hle := blockC_snd_le rest
    simp only [List.length_cons] at h
    simp only [stripGo, List.length_cons, List.length_append]
    rw [ih (by omega)]
    omega
  | case5 fuel rest ih =>
    have hlen := tmplC_len rest 0
    have hle := tmplC_snd_le rest 0
    simp only [List.length_cons] at h
    simp only [stripGo, List.length_cons, List.length_append]
    rw [ih (by omega)]
    omega
  | case6 fuel rest ih =>
    have hlen := strC_len rest '\''
    have hle := strC_snd_le rest '\''
    simp only [List.length_cons] at h
    simp only [stripGo, List.length_cons, List.length_append]
    rw [ih (by omega)]
    omega
  | case7 fuel rest ih =>
    have hlen := strC_len rest '"'
    have hle := strC_snd_le rest '"'
    simp only [List.length_cons] at h
    simp only [stripGo, List.length_cons, List.length_append]
    rw [ih (by omega)]
    omega
  | case8 fuel c rest h1 h2 h3 h4 h5 ih =>
    simp only [List.length_cons] at h
    simp only [stripGo, List.length_cons]
    rw [ih (by omega)]

theorem stripGo_nl_sound (fuel : Nat) (l : List Char) (h : l.length ≤ fuel) :
    ∀ k : Nat, (stripGo fuel l)[k]? = some '\n' → l[k]? = some '\n' := by
  induction fuel, l using stripGo.induct with
  | case1 x => simp [stripGo]
  | case2 t ht => simp [stripGo]
  | case3 fuel rest ih =>
    have hlen := lineC_len rest
    have hle := lineC_snd_le rest
    simp only [List.length_cons] at h
    intro k
    match k with
    | 0 => simp [stripGo]
    | 1 => simp [stripGo]
    | k + 2 =>
      simp only [stripGo, List.getElem?_cons_succ]
      by_cases hk : k < (lineC rest).1.length
      · rw [List.getElem?_append_left hk]
        intro hh
        exact absurd (lineC_fst_blank rest _ (List.getElem?_mem hh)) (by decide)
      · rw [List.getElem?_append_right (by omega)]
        intro hh
        have hres := ih (by omega) _ hh
        rw [lineC_snd_drop rest, List.getElem?_drop] at hres
        rwa [show (lineC rest).1.length + (k - (lineC rest).1.length) = k by omega] at hres
  | case4 fuel rest ih =>
    have hlen := blockC_len rest
    have hle := blockC_snd_le rest
    simp only [List.length_cons] at h
    intro k
    match k with
    | 0 => simp [stripGo]
    | 1 => simp [stripGo]
    | k + 2 =>
      simp only [stripGo, List.getElem?_cons_succ]
      by_cases hk : k < (blockC rest).1.length
      · rw [List.getElem?_append_left hk]
        intro hh
        exact ((blockC_nl_iff rest k).1 hh).2
      · rw [List.getElem?_append_right (by omega)]
        intro hh
        have hres := ih (by omega) _ hh
        rw [blockC_snd_drop rest, List.getElem?_drop] at hres
        rwa [show (blockC rest).1.length + (k - (blockC rest).1.length) = k by omega] at hres
  | case5 fuel rest ih =>
    have hlen := tmplC_len rest 0
    have hle := tmplC_snd_le rest 0
    simp only [List.length_cons] at h
    intro k
    match k with
    | 0 => simp [stripGo]
    | k + 1 =>
      simp only [stripGo, List.getElem?_cons_succ]
      by_cases hk : k < (tmplC rest 0).1.length
      · rw [List.getElem?_append_left hk]
        exact tmplC_nl_sound rest 0 k
      · rw [List.getElem?_append_right (by omega)]
        intro hh
        have hres := ih (by omega) _ hh
        rw [tmplC_snd_drop rest 0, List.getElem?_drop] at hres
        rwa [show (tmplC rest 0).1.length + (k - (tmplC rest 0).1.length) = k by omega] at hres
  | case6 fuel rest ih =>
    have hlen := strC_len rest '\''
    have hle := strC_snd_le rest '\''
    simp only [List.length_cons] at h
    intro k
    match k with
    | 0 => simp [stripGo]
    | k + 1 =>
      simp only [stripGo, List.getElem?_cons_succ]
      by_cases hk : k < (strC rest '\'').1.length
      · rw [List.getElem?_append_left hk]
        exact strC_nl_sound rest '\'' k
      · rw [List.getElem?_append_right (by omega)]
        intro hh
        have hres := ih (by omega) _ hh
        rw [strC_snd_drop rest '\'', List.getElem?_drop] at hres
        rwa [show (strC rest '\'').1.length + (k - (strC rest '\'').1.length) = k by omega] at hres
  | case7 fuel rest ih =>
    have hlen := strC_len rest '"'
    have hle := strC_snd_le rest '"'
    simp only [List.length_cons] at h
    intro k
    match k with
    | 0 => simp [stripGo]
    | k + 1 =>
      simp only [stripGo, List.getElem?_cons_succ]
      by_cases hk : k < (strC rest '"').1.length
      · rw [List.getElem?_append_left hk]
        exact strC_nl_sound rest '"' k
      · rw [List.getElem?_append_right (by omega)]
        intro hh
        have hres := ih (by omega) _ hh
        rw [strC_snd_drop rest '"', List.getElem?_drop] at hres
        rwa [show (strC rest '"').1.length + (k - (strC rest '"').1.length) = k by omega] at hres
  | case8 fuel c rest h1 h2 h3 h4 h5 ih =>
    simp only [List.length_cons] at h
    intro k
    match k with
    | 0 =>
      simp only [stripGo, List.getElem?_cons_zero]
      exact id
    | k + 1 =>
      simp only [stripGo, List.getElem?_cons_succ]
      exact ih (by omega) k

theorem stripGo_nl_complete (fuel : Nat) (l : List Char) (h : l.length ≤ fuel)
    (hnb : '\\' ∉ l) :
    ∀ k : Nat, l[k]? = some '\n' → (stripGo fuel l)[k]? = some '\n' := by
  induction fuel, l using stripGo.induct with
  | case1 x =>
    have hx : x = [] := List.eq_nil_of_length_eq_zero (by omega)
    subst hx
    simp
  | case2 t ht => simp
  | case3 fuel rest ih =>
    have hlen := lineC_len rest
    have hle := lineC_snd_le rest
    have hnb' : '\\' ∉ (lineC rest).2 := fun hc =>
      hnb (by
        simp only [List.mem_cons]
        right; right
        exact (lineC_snd_drop rest ▸ List.drop_subset _ _) hc)
    simp only [List.length_cons] at h
    intro k
    match k with
    | 0 => simp
    | 1 => simp
    | k + 2 =>
      simp only [List.getElem?_cons_succ]
      intro hh
      have hge : ¬ k < (lineC rest).1.length := fun hk =>
        lineC_consumed_no_nl rest k hk hh
      simp only [stripGo, List.getElem?_cons_succ]
      rw [List.getElem?_append_right (by omega)]
      apply ih (by omega) hnb'
      rw [lineC_snd_drop rest, List.getElem?_drop]
      rwa [show (lineC rest).1.length + (k - (lineC rest).1.length) = k by omega]
  | case4 fuel rest ih =>
    have hlen := blockC_len rest
    have hle := blockC_snd_le rest
    have hnb' : '\\' ∉ (blockC rest).2 := fun hc =>
      hnb (by
        simp only [List.mem_cons]
        right; right
        exact (blockC_snd_drop rest ▸ List.drop_subset _ _) hc)
    simp only [List.length_cons] at h
    intro k
    match k with
    | 0 => simp
    | 1 => simp
    | k + 2 =>
      simp only [List.getElem?_cons_succ]
      intro hh
      simp only [stripGo, List.getElem?_cons_succ]
      by_cases hk : k < (blockC rest).1.length
      · rw [List.getElem?_append_left hk]
        exact (blockC_nl_iff rest k).2 ⟨hk, hh⟩
      · rw [List.getElem?_append_right (by omega)]
        apply ih (by omega) hnb'
        rw [blockC_snd_drop rest, List.getElem?_drop]
        rwa [show (blockC rest).1.length + (k - (blockC rest).1.length) = k by omega]
  | case5 fuel rest ih =>
    have hlen := tmplC_len rest 0
    have hle := tmplC_snd_le rest 0
    have hnbr : '\\' ∉ rest := fun hc => hnb (by simp [hc])
    have hnb' : '\\' ∉ (tmplC rest 0).2 := fun hc =>
      hnbr ((tmplC_snd_drop rest 0 ▸ List.drop_subset _ _) hc)
    simp only [List.length_cons] at h
    intro k
    match k with
    | 0 => simp
    | k + 1 =>
      simp only [List.getElem?_cons_succ]
      intro hh
      simp only [stripGo, List.getElem?_cons_succ]
      by_cases hk : k < (tmplC rest 0).1.length
      · rw [List.getElem?_append_left hk]
        exact tmplC_nl_complete rest 0 hnbr k hk hh
      · rw [List.getElem?_append_right (by omega)]
        apply ih (by omega) hnb'
        rw [tmplC_snd_drop rest 0, List.getElem?_drop]
        rwa [show (tmplC rest 0).1.length + (k - (tmplC rest 0).1.length) = k by omega]
  | case6 fuel rest ih =>
    have hlen := strC_len rest '\''
    have hle := strC_snd_le rest '\''
    have hnbr : '\\' ∉ rest := fun hc => hnb (by simp [hc])
    have hnb' : '\\' ∉ (strC rest '\'').2 := fun hc =>
      hnbr ((strC_snd_drop rest '\'' ▸ List.drop_subset _ _) hc)
    simp only [List.length_cons] at h
    intro k
    match k with
    | 0 => simp
    | k + 1 =>
      simp only [List.getElem?_cons_succ]
      intro hh
      simp only [stripGo, List.getElem?_cons_succ]
      by_cases hk : k < (strC rest '\'').1.length
      · rw [List.getElem?_append_left hk]
        exact strC_nl_complete rest '\'' (by decide) hnbr k hk hh
      · rw [List.getElem?_append_right (by omega)]
        apply ih (by omega) hnb'
        rw [strC_snd_drop rest '\'', List.getElem?_drop]
        rwa [show (strC rest '\'').1.length + (k - (strC rest '\'').1.length) = k by omega]
  | case7 fuel rest ih =>
    have hlen := strC_len rest '"'
    have hle := strC_snd_le rest '"'
    have hnbr : '\\' ∉ rest := fun hc => hnb (by simp [hc])
    have hnb' : '\\' ∉ (strC rest '"').2 := fun hc =>
      hnbr ((strC_snd_drop rest '"' ▸ List.drop_subset _ _) hc)
    simp only [List.length_cons] at h
    intro k
    match k with
    | 0 => simp
    | k + 1 =>
      simp only [List.getElem?_cons_succ]
      intro hh
      simp only [stripGo, List.getElem?_cons_succ]
      by_cases hk : k < (strC rest '"').1.length
      · rw [List.getElem?_append_left hk]
        exact strC_nl_complete rest '"' (by decide) hnbr k hk hh
      · rw [List.getElem?_append_right (by omega)]
        apply ih (by omega) hnb'
        rw [strC_snd_drop rest '"', List.getElem?_drop]
        rwa [show (strC rest '"').1.length + (k - (strC rest '"').1.length) = k by omega]
  | case8 fuel c rest h1 h2 h3 h4 h5 ih =>
    have hnb' : '\\' ∉ rest := fun hc => hnb (by simp [hc])
    simp only [List.length_cons] at h
    intro k
    match k with
    | 0 =>
      simp only [List.getElem?_cons_zero, stripGo]
      exact id
    | k + 1 =>
      simp only [List.getElem?_cons_succ, stripGo]
      exact ih (by omega) hnb' k

/-- C7 counterexample: in the four character input consisting of a quote,
a backslash, a newline and a quote, the newline at offset 2 is consumed
as the second character of an escape sequence and blanked, so it is not
preserved verbatim in the output, refuting the claim that every newline
of the input survives at the same offset. -/
theorem strip_newline_claim_counterexample :
    ("'\\\n'".data)[2]? = some '\n' ∧
      ((stripLiteralsAndComments "'\\\n'").data)[2]? = some ' ' := by
  decide

/-- C7 (amended): for every input the output of the Text Normalizer has
exactly the same length as the input, every newline of the output sits on
an offset holding a newline of the input, and for every input containing
no backslash (hence no escape sequence) every newline character of the
input is preserved verbatim at the same offset of the output. -/
theorem stripLiteralsAndComments_length_and_newlines (s : String) :
    (stripLiteralsAndComments s).length = s.length ∧
    (∀ k : Nat, (stripLiteralsAndComments s).data[k]? = some '\n' → s.data[k]? = some '\n') ∧
    ('\\' ∉ s.data → ∀ k : Nat, s.data[k]? = some '\n' →
      (stripLiteralsAndComments s).data[k]? = some '\n') := by
  refine ⟨?_, ?_, ?_⟩
  · show (stripGo s.data.length s.data).length = s.data.length
    exact stripGo_length _ _ le_rfl
  · exact stripGo_nl_sound _ _ le_rfl
  · exact fun hnb => stripGo_nl_complete _ _ le_rfl hnb

theorem stripLiteralsAndComments_length_and_newlines_witness :
    (stripLiteralsAndComments "a\nb").length = ("a\nb" : String).length ∧
      (stripLiteralsAndComments "a\nb").data[1]? = some '\n' := by
  have h := stripLiteralsAndComments_length_and_newlines "a\nb"
  exact ⟨h.1, h.2.2 (by decide) 1 (by decide)⟩

/-- C6 counterexample: for the template literal containing the single
interpolation hole with body x, the character of the hole at offset 3 is
blanked in the output, refuting the claim that interpolation hole
contents appear unmasked. -/
theorem template_hole_masked_counterexample :
    ("`${x}`".data)[3]? = some 'x' ∧
      ((stripLiteralsAndComments "`${x}`").data)[3]? = some ' ' := by
  decide

/-- C6 (amended): every character the template-literal loop emits —
including those for the contents of interpolation holes — is a blank or a
preserved newline; the nesting depth counter only keeps a closing brace
or backtick inside a hole from terminating the literal early, it does not
cause hole contents to be copied through unmasked. -/
theorem tmpl_body_fully_masked (l : List Char) (d : Nat) :
    ∀ c ∈ (tmplC l d).1, c = ' ' ∨ c = '\n' :=
  tmplC_fst_blank l d

theorem tmpl_body_fully_masked_witness : ' ' = ' ' ∨ ' ' = '\n' :=
  tmpl_body_fully_masked "${y}`".data 0 ' ' (by decide)

/-! ### Association list and fold lemmas -/
theorem setAdd_mem (l : List String) (x y : String) :
    y ∈ setAdd l x ↔ y ∈ l ∨ y = x := by
  simp only [setAdd]
  split
  · constructor
    · exact Or.inl
    · rintro (h | rfl)
      · exact h
      · assumption
  · simp [List.mem_append]

theorem lookupA_updateA_self {α : Type} (l : List (String × α)) (k : String) (v : α) :
    lookupA (updateA l k v) k = some v := by
  induction l with
  | nil => simp [updateA, lookupA]
  | cons p t ih =>
    obtain ⟨k', w⟩ := p
    simp only [updateA]
    split
    · simp [lookupA]
    · simp only [lookupA]
      rw [if_neg (by assumption)]
      exact ih

theorem lookupA_updateA_ne {α : Type} (l : List (String × α)) (k k' : String) (v : α)
    (h : k' ≠ k) : lookupA (updateA l k v) k' = lookupA l k' := by
  induction l with
  | nil =>
    simp only [updateA, lookupA]
    rw [if_neg (fun hh => h hh.symm)]
  | cons p t ih =>
    obtain ⟨k'', w⟩ := p
    simp only [updateA]
    by_cases hk : k'' = k
    · subst hk
      rw [if_pos rfl]
      simp only [lookupA]
      rw [if_neg (fun hh => h hh.symm), if_neg (fun hh => h hh.symm)]
    · rw [if_neg hk]
      simp only [lookupA]
      by_cases hk2 : k'' = k'
      · rw [if_pos hk2, if_pos hk2]
      · rw [if_neg hk2, if_neg hk2]
        exact ih

theorem lookupA_isSome_mem {α : Type} (l : List (String × α)) (k : String) (v : α)
    (h : lookupA l k = some v) : (k, v) ∈ l := by
  induction l with
  | nil => simp [lookupA] at h
  | cons p t ih =>
    obtain ⟨k', w⟩ := p
    simp only [lookupA] at h
    split at h
    · obtain rfl := Option.some.inj h
      rename_i hk
      subst hk
      exact List.mem_cons_self _ _
    · exact List.mem_cons_of_mem _ (ih h)

theorem mem_lookupA_isSome {α : Type} (l : List (String × α)) (k : String) (v : α)
    (h : (k, v) ∈ l) : (lookupA l k).isSome := by
  induction l with
  | nil => simp at h
  | cons p t ih =>
    obtain ⟨k', w⟩ := p
    simp only [lookupA]
    by_cases hk : k' = k
    · rw [if_pos hk]
      simp
    · rw [if_neg hk]
      rcases List.mem_cons.1 h with heq | hmem
      · exact absurd (congrArg Prod.fst heq).symm hk
      · exact ih hmem

theorem lookupA_isSome_mem_keys {α : Type} (l : List (String × α)) (k : String)
    (h : (lookupA l k).isSome) : k ∈ l.map Prod.fst := by
  induction l with
  | nil => simp [lookupA] at h
  | cons p t ih =>
    obtain ⟨k', w⟩ := p
    simp only [lookupA] at h
    split at h
    · rename_i hk
      subst hk
      simp
    · simpa using Or.inr (ih h)

theorem foldl_preserve {α β : Type} (step : β → α → β) (P : β → Prop)
    (hstep : ∀ s a, P s → P (step s a)) :
    ∀ (l : List α) (s : β), P s → P (l.foldl step s) := by
  intro l
  induction l with
  | nil => exact fun s h => h
  | cons a t ih => exact fun s h => ih (step s a) (hstep s a h)

theorem foldl_mem_intro {α β : Type} (step : β → α → β) (P : β → Prop)
    (hstep : ∀ s a, P s → P (step s a)) (l : List α) (a : α) (ha : a ∈ l)
    (hintro : ∀ s, P (step s a)) : ∀ s, P (l.foldl step s) := by
  obtain ⟨l1, l2, rfl⟩ := List.append_of_mem ha
  intro s
  rw [List.foldl_append]
  simp only [List.foldl_cons]
  exact foldl_preserve step P hstep l2 _ (hintro _)

/-! ### Graph builder lemmas and claim C9 -/
theorem processFile_lookup_ne (fs : FS) (parse : String → Option (List ModuleNode))
    (st : ExportGraph) (file B : String) (hne : file ≠ B) :
    lookupA (processFile fs parse st file).exports B = lookupA st.exports B ∧
    lookupA (processFile fs parse st file).imports B = lookupA st.imports B := by
  simp only [processFile]
  cases fs.readFile file
  · exact ⟨rfl, rfl⟩
  · exact ⟨lookupA_updateA_ne _ _ _ _ (fun hh => hne hh.symm),
      lookupA_updateA_ne _ _ _ _ (fun hh => hne hh.symm)⟩

theorem processFile_skip (fs : FS) (parse : String → Option (List ModuleNode))
    (st : ExportGraph) (F : String) (hF : fs.readFile F = none) :
    processFile fs parse st F = st := by
  simp [processFile, hF]

theorem buildGraph_skip (fs : FS) (parse : String → Option (List ModuleNode)) (B : String) :
    ∀ (l : List String) (st : ExportGraph), B ∉ l →
    lookupA (l.foldl (processFile fs parse) st).exports B = lookupA st.exports B ∧
    lookupA (l.foldl (processFile fs parse) st).imports B = lookupA st.imports B := by
  intro l
  induction l with
  | nil => exact fun st _ => ⟨rfl, rfl⟩
  | cons a t ih =>
    intro st hB
    simp only [List.foldl_cons]
    have hne : a ≠ B := fun hh => hB (hh ▸ List.mem_cons_self a t)
    obtain ⟨h1, h2⟩ := ih (processFile fs parse st a) (fun hh => hB (List.mem_cons_of_mem a hh))
    obtain ⟨p1, p2⟩ := processFile_lookup_ne fs parse st a B hne
    exact ⟨h1.trans p1, h2.trans p2⟩

theorem buildGraph_lookup (fs : FS) (parse : String → Option (List ModuleNode))
    (files : List String) (pp B content : String)
    (hB : B ∈ files) (hr : fs.readFile B = some content) :
    lookupA (buildExportGraph fs parse files pp).exports B =
      some (extractFacts fs parse B content).1 ∧
    lookupA (buildExportGraph fs parse files pp).imports B =
      some (extractFacts fs parse B content).2 := by
  suffices h : ∀ (l : List String) (st : ExportGraph), B ∈ l →
      lookupA (l.foldl (processFile fs parse) st).exports B =
        some (extractFacts fs parse B content).1 ∧
      lookupA (l.foldl (processFile fs parse) st).imports B =
        some (extractFacts fs parse B content).2 by
    exact h files _ hB
  intro l
  induction l with
  | nil =>
    intro st h
    simp at h
  | cons a t ih =>
    intro st hmem
    simp only [List.foldl_cons]
    by_cases hat : B ∈ t
    · exact ih _ hat
    · have ha : a = B := by
        rcases List.mem_cons.1 hmem with h | h
        · exact h.symm
        · exact absurd h hat
      rw [ha]
      obtain ⟨s1, s2⟩ := buildGraph_skip fs parse B t (processFile fs parse st B) hat
      refine ⟨s1.trans ?_, s2.trans ?_⟩
      · simp only [processFile, hr]
        exact lookupA_updateA_self ..
      · simp only [processFile, hr]
        exact lookupA_updateA_self ..

theorem buildGraph_none_lookup (fs : FS) (parse : String → Option (List ModuleNode))
    (F : String) (hF : fs.readFile F = none) :
    ∀ (l : List String) (st : ExportGraph),
    lookupA st.exports F = none → lookupA st.imports F = none →
    lookupA (l.foldl (processFile fs parse) st).exports F = none ∧
    lookupA (l.foldl (processFile fs parse) st).imports F = none := by
  intro l
  induction l with
  | nil => exact fun st h1 h2 => ⟨h1, h2⟩
  | cons a t ih =>
    intro st h1 h2
    simp only [List.foldl_cons]
    by_cases ha : a = F
    · subst ha
      rw [processFile_skip fs parse st a hF]
      exact ih st h1 h2
    · obtain ⟨p1, p2⟩ := processFile_lookup_ne fs parse st a F ha
      exact ih _ (by rw [p1]; exact h1) (by rw [p2]; exact h2)

theorem buildGraph_filter (fs : FS) (parse : String → Option (List ModuleNode))
    (F : String) (hF : fs.readFile F = none) :
    ∀ (l : List String) (st : ExportGraph),
    l.foldl (processFile fs parse) st =
      (l.filter (fun x => x ≠ F)).foldl (processFile fs parse) st := by
  intro l
  induction l with
  | nil => intro st; rfl
  | cons a t ih =>
    intro st
    by_cases ha : a = F
    · subst ha
      simp only [List.foldl_cons, List.filter_cons]
      rw [if_neg (by simp)]
      rw [processFile_skip _ _ _ _ hF]
      exact ih st
    · simp only [List.foldl_cons, List.filter_cons]
      rw [if_pos (by simp [ha])]
      simp only [List.foldl_cons]
      exact ih _

/-- C9: a file whose read throws is skipped entirely: it appears in
neither the exports map nor the imports map of the graph, the graph
equals the one built from the file list with that file removed (the
state accumulated for other files is unchanged and the run does not
abort), and no unused-export finding names it as the exporting file. -/
theorem unreadable_file_skipped (fs : FS) (parse : String → Option (List ModuleNode))
    (files : List String) (projectPath F : String) (hF : fs.readFile F = none) :
    lookupA (buildExportGraph fs parse files projectPath).exports F = none ∧
    lookupA (buildExportGraph fs parse files projectPath).imports F = none ∧
    buildExportGraph fs parse files projectPath =
      buildExportGraph fs parse (files.filter (fun x => x ≠ F)) projectPath ∧
    ∀ u ∈ findUnusedExports fs (buildExportGraph fs parse files projectPath) files projectPath,
      u.file ≠ F := by
  obtain ⟨h1, h2⟩ := buildGraph_none_lookup fs parse F hF files ⟨[], []⟩ rfl rfl
  refine ⟨h1, h2, buildGraph_filter fs parse F hF files ⟨[], []⟩, ?_⟩
  intro u hu
  simp only [findUnusedExports, List.mem_flatMap, List.mem_map, List.mem_filter] at hu
  obtain ⟨e, he, n, _, rfl⟩ := hu
  intro hfile
  simp only at hfile
  have hsome : (lookupA (buildExportGraph fs parse files projectPath).exports e.1).isSome :=
    mem_lookupA_isSome _ _ _ he
  rw [hfile] at hsome
  have hnone : lookupA (buildExportGraph fs parse files projectPath).exports F = none := h1
  rw [hnone] at hsome
  simp at hsome

theorem unreadable_file_skipped_witness :
    lookupA (buildExportGraph fsC9 (fun _ => none) ["/r/bad.ts", "/r/s/c.ts"] "/r").exports
        "/r/bad.ts" = none ∧
      buildExportGraph fsC9 (fun _ => none) ["/r/bad.ts", "/r/s/c.ts"] "/r" =
        buildExportGraph fsC9 (fun _ => none)
          (["/r/bad.ts", "/r/s/c.ts"].filter (fun x => x ≠ "/r/bad.ts")) "/r" := by
  have h := unreadable_file_skipped fsC9 (fun _ => none) ["/r/bad.ts", "/r/s/c.ts"] "/r"
    "/r/bad.ts" (by decide)
  exact ⟨h.1, h.2.2.1⟩

theorem allImportsStep_mem (m : List (String × List String)) (r : ImportRecord)
    (F E : String) :
    (E ∈ (lookupA (allImportsStep m r) F).getD [] ↔
      E ∈ (lookupA m F).getD [] ∨ (r.importedName = E ∧ r.sourceFile = F)) := by
  simp only [allImportsStep]
  by_cases hF : r.sourceFile = F
  · subst hF
    rw [lookupA_updateA_self]
    simp only [Option.getD_some, setAdd_mem]
    constructor
    · rintro (h | rfl)
      · exact Or.inl h
      · exact Or.inr ⟨rfl, trivial⟩
    · rintro (h | ⟨heq, -⟩)
      · exact Or.inl h
      · exact Or.inr heq.symm
  · rw [lookupA_updateA_ne _ _ _ _ (fun hh => hF hh.symm)]
    simp [hF]

theorem allImports_fold_recs (recs : List ImportRecord) :
    ∀ (m : List (String × List String)) (F E : String),
    (E ∈ (lookupA (recs.foldl allImportsStep m) F).getD [] ↔
      E ∈ (lookupA m F).getD [] ∨ ∃ r ∈ recs, r.importedName = E ∧ r.sourceFile = F) := by
  induction recs with
  | nil => simp
  | cons r t ih =>
    intro m F E
    simp only [List.foldl_cons]
    rw [ih]
    rw [allImportsStep_mem]
    simp only [List.mem_cons]
    constructor
    · rintro (⟨h | hr⟩ | ⟨r', hr', hprop⟩)
      · exact Or.inl h
      · exact Or.inr ⟨r, Or.inl rfl, hr⟩
      · exact Or.inr ⟨r', Or.inr hr', hprop⟩
    · rintro (h | ⟨r', hr' | hr', hprop⟩)
      · exact Or.inl (Or.inl h)
      · exact Or.inl (Or.inr (hr' ▸ hprop))
      · exact Or.inr ⟨r', hr', hprop⟩

theorem buildAllImports_mem (entries : List (String × List ImportRecord)) (F E : String) :
    (E ∈ (lookupA (buildAllImports entries) F).getD [] ↔
      ∃ e ∈ entries, ∃ r ∈ e.2, r.importedName = E ∧ r.sourceFile = F) := by
  have key : ∀ (l : List (String × List ImportRecord)) (m : List (String × List String)),
      (E ∈ (lookupA (l.foldl (fun m e => e.2.foldl allImportsStep m) m) F).getD [] ↔
        E ∈ (lookupA m F).getD [] ∨ ∃ e ∈ l, ∃ r ∈ e.2, r.importedName = E ∧ r.sourceFile = F) := by
    intro l
    induction l with
    | nil => simp
    | cons e t ih =>
      intro m
      simp only [List.foldl_cons]
      rw [ih, allImports_fold_recs]
      simp only [List.mem_cons]
      constructor
      · rintro (⟨h | ⟨r, hr, hprop⟩⟩ | ⟨e', he', r, hr, hprop⟩)
        · exact Or.inl h
        · exact Or.inr ⟨e, Or.inl rfl, r, hr, hprop⟩
        · exact Or.inr ⟨e', Or.inr he', r, hr, hprop⟩
      · rintro (h | ⟨e', he' | he', r, hr, hprop⟩)
        · exact Or.inl (Or.inl h)
        · exact Or.inl (Or.inr ⟨r, he' ▸ hr, hprop⟩)
        · exact Or.inr ⟨e', he', r, hr, hprop⟩
  have := key entries []
  simp only [lookupA, Option.getD_none, List.not_mem_nil, false_or] at this
  rw [show buildAllImports entries =
    entries.foldl (fun m e => e.2.foldl allImportsStep m) [] from rfl]
  exact this

theorem isUsedExport_iff (g : ExportGraph) (F E : String) :
    isUsedExport g F E = true ↔ usedPerClaim g F E := by
  simp only [isUsedExport, usedNames, Bool.or_eq_true, Bool.and_eq_true,
    List.elem_eq_mem, decide_eq_true_eq, usedPerClaim]
  rw [buildAllImports_mem, buildAllImports_mem, buildAllImports_mem]
  constructor
  · rintro ((⟨e, he, r, hr, h1, h2⟩ | ⟨e, he, r, hr, h1, h2⟩) | ⟨hd, e, he, r, hr, h1, h2⟩)
    · exact ⟨e, he, r, hr, h2, Or.inl h1⟩
    · exact ⟨e, he, r, hr, h2, Or.inr (Or.inl h1)⟩
    · exact ⟨e, he, r, hr, h2, Or.inr (Or.inr ⟨hd, h1⟩)⟩
  · rintro ⟨e, he, r, hr, hsrc, h1 | h1 | ⟨hd, h1⟩⟩
    · exact Or.inl (Or.inl ⟨e, he, r, hr, h1, hsrc⟩)
    · exact Or.inl (Or.inr ⟨e, he, r, hr, h1, hsrc⟩)
    · exact Or.inr ⟨hd, e, he, r, hr, h1, hsrc⟩

theorem mem_findUnusedExports (fs : FS) (g : ExportGraph) (files : List String)
    (pp : String) (u : UnusedExport) :
    u ∈ findUnusedExports fs g files pp ↔
      ∃ e ∈ g.exports, u.file = e.1 ∧ u.exportName ∈ e.2 ∧
        strStartsWith u.exportName "*" = false ∧
        isUsedExport g e.1 u.exportName = false ∧
        u.line = getExportLine fs e.1 u.exportName := by
  simp only [findUnusedExports, List.mem_flatMap, List.mem_map, List.mem_filter,
    Bool.and_eq_true, Bool.not_eq_true']
  constructor
  · rintro ⟨e, he, n, ⟨hn, h1, h2⟩, rfl⟩
    exact ⟨e, he, rfl, hn, h1, h2, rfl⟩
  · rintro ⟨e, he, hfile, hn, h1, h2, hline⟩
    refine ⟨e, he, u.exportName, ⟨hn, h1, h2⟩, ?_⟩
    obtain ⟨uf, un, ul⟩ := u
    simp only at hfile hline ⊢
    rw [hfile, hline]

theorem string_append_left_cancel (s a b : String) (h : s ++ a = s ++ b) : a = b := by
  have hd := congrArg String.data h
  simp only [String.data_append] at hd
  obtain ⟨da⟩ := a
  obtain ⟨db⟩ := b
  exact congrArg String.mk (List.append_cancel_left hd)

theorem mkCycleIssue_ne_unused (pp2 : String) (c : List String) (pp f e : String)
    (line : Nat) : mkCycleIssue pp2 c ≠ mkUnusedIssue pp f e line := by
  intro h
  have hty := congrArg TreeShakingIssue.issueType h
  simp only [mkCycleIssue, mkUnusedIssue] at hty
  exact absurd hty (by decide)

theorem mkUnusedIssue_inj (pp f1 e1 : String) (l1 : Nat) (f2 e2 : String) (l2 : Nat)
    (h : mkUnusedIssue pp f1 e1 l1 = mkUnusedIssue pp f2 e2 l2) :
    relativePath pp f1 = relativePath pp f2 ∧ e1 = e2 ∧ l1 = l2 := by
  have hfile := congrArg TreeShakingIssue.file h
  have hpat := congrArg TreeShakingIssue.pattern h
  have hline := congrArg TreeShakingIssue.line h
  simp only [mkUnusedIssue] at hfile hpat hline
  exact ⟨hfile, string_append_left_cancel _ _ _ hpat, by simpa using hline⟩

theorem isEntryPoint_rel (f1 f2 pp : String)
    (h : relativePath pp f1 = relativePath pp f2) :
    isEntryPoint f1 pp = isEntryPoint f2 pp := by
  simp [isEntryPoint, h]

/-- C1: for every analyzed file F recorded in the graph with export set S
and every non-wildcard export name E of S, the analysis emits the
unused-export finding for (F, E) iff F does not match the entry-point
predicate and E is not used, where E is used exactly when some
ImportRecord resolving to F consumes the exact name E, or the namespace
name, or E is default and a default import of F exists; in particular an
entry-point file yields no unused-export finding.  The side condition
hinj states that no other recorded file shares the project-root-relative
path of F, which identifies the finding with its file. -/
theorem unused_export_finding_iff (fs : FS) (parse : String → Option (List ModuleNode))
    (files : List String) (projectPath F E : String) (S : List String)
    (hlook : lookupA (buildExportGraph fs parse files projectPath).exports F = some S)
    (hE : E ∈ S) (hw : strStartsWith E "*" = false)
    (hinj : ∀ F', (lookupA (buildExportGraph fs parse files projectPath).exports F').isSome →
      relativePath projectPath F' = relativePath projectPath F → F' = F) :
    (mkUnusedIssue projectPath F E (getExportLine fs F E) ∈
        analyzeUnusedExports fs parse files projectPath) ↔
      (isEntryPoint F projectPath = false ∧
        ¬ usedPerClaim (buildExportGraph fs parse files projectPath) F E) := by
  simp only [analyzeUnusedExports, List.mem_append, List.mem_map]
  constructor
  · rintro (hmem | ⟨c, hc, hcy⟩)
    · simp only [List.mem_map, List.mem_filter] at hmem
      obtain ⟨u, ⟨hu, hentry⟩, hissue⟩ := hmem
      rw [mem_findUnusedExports] at hu
      obtain ⟨e, he, hfile, hn, h1, h2, hline⟩ := hu
      obtain ⟨hrel, hE2, hl2⟩ := mkUnusedIssue_inj _ _ _ _ _ _ _ hissue
      have hFeq : e.1 = F := by
        apply hinj
        · exact mem_lookupA_isSome _ _ _ he
        · rw [← hfile]
          exact hrel
      constructor
      · rw [← isEntryPoint_rel u.file F projectPath hrel]
        simpa using hentry
      · rw [hFeq, hE2] at h2
        intro hc
        rw [(isUsedExport_iff _ _ _).2 hc] at h2
        exact absurd h2 (by decide)
    · exact absurd hcy (mkCycleIssue_ne_unused _ _ _ _ _ _)
  · rintro ⟨hentry, hused⟩
    left
    simp only [List.mem_map, List.mem_filter]
    refine ⟨⟨F, E, getExportLine fs F E⟩, ⟨?_, ?_⟩, rfl⟩
    · rw [mem_findUnusedExports]
      refine ⟨(F, S), lookupA_isSome_mem _ _ _ hlook, rfl, hE, hw, ?_, rfl⟩
      cases hiu : isUsedExport (buildExportGraph fs parse files projectPath) F E
      · rfl
      · exact absurd ((isUsedExport_iff _ _ _).1 hiu) hused
    · simpa using hentry

theorem unused_export_finding_iff_witness :
    mkUnusedIssue "/r" "/r/lib/c.ts" "bar" 1 ∈
      analyzeUnusedExports fsC1 parseC1 ["/r/lib/c.ts"] "/r" := by
  have hinj : ∀ F',
      (lookupA (buildExportGraph fsC1 parseC1 ["/r/lib/c.ts"] "/r").exports F').isSome →
      relativePath "/r" F' = relativePath "/r" "/r/lib/c.ts" → F' = "/r/lib/c.ts" := by
    intro F' hs _
    rw [show (buildExportGraph fsC1 parseC1 ["/r/lib/c.ts"] "/r").exports =
      [("/r/lib/c.ts", ["bar"])] from by decide] at hs
    by_cases h : "/r/lib/c.ts" = F'
    · exact h.symm
    · simp [lookupA, h] at hs
  have h := unused_export_finding_iff fsC1 parseC1 ["/r/lib/c.ts"] "/r" "/r/lib/c.ts" "bar"
    ["bar"] (by decide) (by decide) (by decide) hinj
  have hline : getExportLine fsC1 "/r/lib/c.ts" "bar" = 1 := by decide
  rw [← hline]
  apply h.mpr
  refine ⟨by decide, ?_⟩
  rintro ⟨e, he, r, hr, -⟩
  rw [show (buildExportGraph fsC1 parseC1 ["/r/lib/c.ts"] "/r").imports =
    [("/r/lib/c.ts", [])] from by decide] at he
  obtain rfl := List.mem_singleton.1 he
  simp at hr

theorem dfsCycles_inv (adj : List (String × List String)) (pp : String) :
    ∀ (fuel : Nat) (node : String) (path inStack : List String) (st : DfsState),
    cyclesInv pp st → cyclesInv pp (dfsCycles adj pp fuel node path inStack st) := by
  intro fuel
  induction fuel with
  | zero =>
    intro node path inStack st hst
    simpa [dfsCycles] using hst
  | succ fuel ih =>
    intro node path inStack st hst
    simp only [dfsCycles]
    split
    · split
      · split
        · exact hst
        · rename_i hnotrep
          constructor
          · intro c hc
            simp only [List.mem_append, List.mem_singleton] at hc ⊢
            rcases hc with hc | rfl
            · exact Or.inl (hst.1 c hc)
            · exact Or.inr rfl
          · rw [List.map_append]
            simp only [List.map_cons, List.map_nil]
            rw [List.nodup_append]
            refine ⟨hst.2, List.nodup_singleton _, ?_⟩
            intro x hx
            simp only [List.mem_singleton]
            intro hxx
            subst hxx
            obtain ⟨c, hc, hkey⟩ := List.mem_map.1 hx
            exact hnotrep (by simpa using (hkey ▸ hst.1 c hc))
      · exact hst
    · split
      · exact hst
      · have hfold : cyclesInv pp (((lookupA adj node).getD []).foldl
            (fun s dep => dfsCycles adj pp fuel dep (path ++ [node]) (node :: inStack) s) st) :=
          foldl_preserve _ (cyclesInv pp)
            (fun s a hs => ih a (path ++ [node]) (node :: inStack) s hs) _ st hst
        exact ⟨hfold.1, hfold.2⟩

/-- C3: each cycle of the dependency graph is reported at most once: the
canonical keys (sorted project-root-relative member paths) of the
reported cycles are pairwise distinct, so two discoveries of the same
member set from different starts or rotations collapse into one finding;
and the concrete two-file mutual-import pair yields exactly one
circular-dependency finding listing both members. -/
theorem cycles_reported_once :
    (∀ (g : ExportGraph) (files : List String) (pp : String),
      ((findCircularDependencies g files pp).map (canonicalCycleKey pp)).Nodup) ∧
    findCircularDependencies
        ⟨[], [("/r/a.ts", [⟨"x", "/r/b.ts"⟩]), ("/r/b.ts", [⟨"y", "/r/a.ts"⟩])]⟩
        ["/r/a.ts", "/r/b.ts"] "/r" = [["/r/a.ts", "/r/b.ts"]] := by
  constructor
  · intro g files pp
    have hinv : cyclesInv pp ((files.foldl (fun (st : DfsState) file =>
        if st.visited.contains file then st
        else dfsCycles (buildAdjacency g files) pp (files.length + 1) file [] [] st)
        ⟨[], [], []⟩)) := by
      apply foldl_preserve _ (cyclesInv pp)
      · intro s a hs
        split
        · exact hs
        · exact dfsCycles_inv _ pp _ a [] [] s hs
      · exact ⟨by simp, by simp⟩
    exact hinv.2
  · decide

/-! ### Re-export lemmas and claim C2 -/
theorem setAdd_mono {l : List String} {x : String} (y : String) (h : x ∈ l) :
    x ∈ setAdd l y :=
  (setAdd_mem l y x).2 (Or.inl h)

theorem setAdd_self (l : List String) (x : String) : x ∈ setAdd l x :=
  (setAdd_mem l x x).2 (Or.inr rfl)

theorem processExportSpecifier_mono (fs : FS) (file : String) (source : Option String)
    (st : List String × List ImportRecord) (spec : ExportSpecifier) :
    (∀ x, x ∈ st.1 → x ∈ (processExportSpecifier fs file source st spec).1) ∧
    (∀ r, r ∈ st.2 → r ∈ (processExportSpecifier fs file source st spec).2) := by
  simp only [processExportSpecifier]
  constructor
  · intro x hx
    split
    · split
      · exact setAdd_mono _ hx
      · exact hx
    · split
      · exact setAdd_mono _ hx
      · exact hx
  · intro r hr
    split
    · split
      · exact List.mem_append_left _ hr
      · exact List.mem_append_left _ hr
    · split
      · exact hr
      · exact hr

theorem processExportSpecifier_intro (fs : FS) (file : String) (src X : String)
    (hX : X ≠ "") (hsrc : src ≠ "") (st : List String × List ImportRecord) :
    X ∈ (processExportSpecifier fs file (some src) st ⟨some X, some X⟩).1 ∧
    (⟨X, resolveImportPath fs file src⟩ : ImportRecord) ∈
      (processExportSpecifier fs file (some src) st ⟨some X, some X⟩).2 := by
  have hred : processExportSpecifier fs file (some src) st ⟨some X, some X⟩ =
      (setAdd st.1 X, st.2 ++ [⟨X, resolveImportPath fs file src⟩]) := by
    simp [processExportSpecifier, jsOr, jsTruthy, hX]
  rw [hred]
  exact ⟨setAdd_self _ _, List.mem_append_right _ (List.mem_singleton.2 rfl)⟩

theorem processNode_mono (fs : FS) (file : String) (st : List String × List ImportRecord)
    (node : ModuleNode) :
    (∀ x, x ∈ st.1 → x ∈ (processNode fs file st node).1) ∧
    (∀ r, r ∈ st.2 → r ∈ (processNode fs file st node).2) := by
  cases node with
  | exportNamed specifiers declNames source =>
    simp only [processNode]
    constructor
    · intro x hx
      refine foldl_preserve setAdd (fun l => x ∈ l) (fun s a hs => setAdd_mono _ hs)
        declNames _ ?_
      exact (foldl_preserve _ (fun s => x ∈ s.1)
        (fun s a hs => (processExportSpecifier_mono fs file _ s a).1 x hs) specifiers st hx)
    · intro r hr
      exact (foldl_preserve _ (fun s => r ∈ s.2)
        (fun s a hs => (processExportSpecifier_mono fs file _ s a).2 r hs) specifiers st hr)
  | exportDefault =>
    exact ⟨fun x hx => setAdd_mono _ hx, fun r hr => hr⟩
  | exportAll source =>
    simp only [processNode]
    constructor
    · intro x hx
      split
      · exact setAdd_mono _ hx
      · exact hx
    · intro r hr
      split
      · exact List.mem_append_left _ hr
      · exact hr
  | importDecl specifiers source =>
    simp only [processNode]
    constructor
    · intro x hx
      split
      · exact hx
      · refine foldl_preserve _ (fun s => x ∈ s.1) ?_ specifiers st hx
        intro s a hs
        cases a with
        | importSpec imported =>
          simp only
          split
          · exact hs
          · exact hs
        | importDefault => exact hs
        | importNamespace => exact hs
    · intro r hr
      split
      · exact hr
      · refine foldl_preserve _ (fun s => r ∈ s.2) ?_ specifiers st hr
        intro s a hs
        cases a with
        | importSpec imported =>
          simp only
          split
          · exact List.mem_append_left _ hs
          · exact hs
        | importDefault => exact List.mem_append_left _ hs
        | importNamespace => exact List.mem_append_left _ hs

theorem processNode_intro (fs : FS) (file : String) (specifiers : List ExportSpecifier)
    (declNames : List String) (src X : String) (hX : X ≠ "") (hsrc : src ≠ "")
    (hspec : (⟨some X, some X⟩ : ExportSpecifier) ∈ specifiers)
    (st : List String × List ImportRecord) :
    X ∈ (processNode fs file st (.exportNamed specifiers declNames (some src))).1 ∧
    (⟨X, resolveImportPath fs file src⟩ : ImportRecord) ∈
      (processNode fs file st (.exportNamed specifiers declNames (some src))).2 := by
  simp only [processNode]
  have hjs : jsTruthy (some src) = some src := by simp [jsTruthy, hsrc]
  rw [hjs]
  constructor
  · refine foldl_preserve setAdd (fun l => X ∈ l) (fun s a hs => setAdd_mono _ hs) declNames _ ?_
    exact foldl_mem_intro _ (fun s => X ∈ s.1)
      (fun s a hs => (processExportSpecifier_mono fs file _ s a).1 X hs)
      specifiers _ hspec
      (fun s => (processExportSpecifier_intro fs file src X hX hsrc s).1) st
  · exact foldl_mem_intro _
      (fun s => (⟨X, resolveImportPath fs file src⟩ : ImportRecord) ∈ s.2)
      (fun s a hs => (processExportSpecifier_mono fs file _ s a).2 _ hs)
      specifiers _ hspec
      (fun s => (processExportSpecifier_intro fs file src X hX hsrc s).2) st

theorem extractFacts_primary_reexport (fs : FS)
    (parse : String → Option (List ModuleNode)) (B content : String)
    (nodes : List ModuleNode) (specifiers : List ExportSpecifier)
    (declNames : List String) (src X : String)
    (hp : parse content = some nodes)
    (hnode : ModuleNode.exportNamed specifiers declNames (some src) ∈ nodes)
    (hspec : (⟨some X, some X⟩ : ExportSpecifier) ∈ specifiers)
    (hX : X ≠ "") (hsrc : src ≠ "") :
    X ∈ (extractFacts fs parse B content).1 ∧
    (⟨X, resolveImportPath fs B src⟩ : ImportRecord) ∈ (extractFacts fs parse B content).2 := by
  simp only [extractFacts, hp]
  constructor
  · exact foldl_mem_intro _ (fun s => X ∈ s.1)
      (fun s a hs => (processNode_mono fs B s a).1 X hs) nodes _ hnode
      (fun s => (processNode_intro fs B specifiers declNames src X hX hsrc hspec s).1) _
  · exact foldl_mem_intro _
      (fun s => (⟨X, resolveImportPath fs B src⟩ : ImportRecord) ∈ s.2)
      (fun s a hs => (processNode_mono fs B s a).2 _ hs) nodes _ hnode
      (fun s => (processNode_intro fs B specifiers declNames src X hX hsrc hspec s).2) _

theorem braceFeInner_mono (names : List String) (acc : List String) (x : String)
    (h : x ∈ acc) :
    x ∈ names.foldl (fun a n => if n ≠ "" then setAdd a n else a) acc := by
  refine foldl_preserve _ (fun l => x ∈ l) ?_ names acc h
  intro s n hs
  split
  · exact setAdd_mono _ hs
  · exact hs

theorem braceFiInner_mono (f : String → ImportRecord) (names : List String)
    (acc : List ImportRecord) (r : ImportRecord) (h : r ∈ acc) :
    r ∈ names.foldl (fun a n => if n ≠ "" then a ++ [f n] else a) acc := by
  refine foldl_preserve _ (fun l => r ∈ l) ?_ names acc h
  intro s n hs
  split
  · exact List.mem_append_left _ hs
  · exact hs

theorem extractRegex_reexport (fs : FS) (content stripped : List Char) (file : String)
    (fe0 : List String) (fi0 : List ImportRecord) (i : Nat) (g1 srcc : List Char)
    (X : String) (hX : X ≠ "")
    (hm : (i, (g1, some srcc)) ∈ acceptedMatches exportBraceM content stripped)
    (hXe : X ∈ braceExportNames g1) (hXl : X ∈ braceLocalNames g1) :
    X ∈ (extractExportsAndImportsViaRegex fs content stripped file fe0 fi0).1 ∧
    (⟨X, resolveImportPath fs file ⟨srcc⟩⟩ : ImportRecord) ∈
      (extractExportsAndImportsViaRegex fs content stripped file fe0 fi0).2 := by
  simp only [extractExportsAndImportsViaRegex]
  constructor
  · refine foldl_preserve _ (fun l => X ∈ l) (fun s a hs => setAdd_mono _ hs) _ _ ?_
    refine foldl_preserve _ (fun l => X ∈ l) (fun s a hs => setAdd_mono _ hs) _ _ ?_
    refine foldl_mem_intro _ (fun l => X ∈ l)
      (fun s a hs => braceFeInner_mono _ s X hs) _ _ hm ?_ _
    intro s
    refine foldl_mem_intro _ (fun l => X ∈ l) ?_ _ X hXe ?_ s
    · intro s' n hs
      split
      · exact setAdd_mono _ hs
      · exact hs
    · intro s'
      rw [if_pos hX]
      exact setAdd_self _ _
  · refine foldl_preserve _ (fun l => (⟨X, resolveImportPath fs file ⟨srcc⟩⟩ : ImportRecord) ∈ l)
      (fun s a hs => List.mem_append_left _ hs) _ _ ?_
    refine foldl_preserve _ (fun l => (⟨X, resolveImportPath fs file ⟨srcc⟩⟩ : ImportRecord) ∈ l)
      (fun s a hs => List.mem_append_left _ hs) _ _ ?_
    refine foldl_preserve _ (fun l => (⟨X, resolveImportPath fs file ⟨srcc⟩⟩ : ImportRecord) ∈ l)
      (fun s a hs => braceFiInner_mono (fun n => ⟨n, resolveImportPath fs file ⟨a.2.2⟩⟩) _ s _ hs)
      _ _ ?_
    refine foldl_preserve _ (fun l => (⟨X, resolveImportPath fs file ⟨srcc⟩⟩ : ImportRecord) ∈ l)
      (fun s a hs => List.mem_append_left _ hs) _ _ ?_
    refine foldl_mem_intro _ (fun l => (⟨X, resolveImportPath fs file ⟨srcc⟩⟩ : ImportRecord) ∈ l)
      ?_ _ _ hm ?_ _
    · intro s a hs
      split
      · exact braceFiInner_mono _ _ s _ hs
      · exact hs
    · intro s
      refine foldl_mem_intro _ (fun l => (⟨X, resolveImportPath fs file ⟨srcc⟩⟩ : ImportRecord) ∈ l)
        ?_ _ X hXl ?_ s
      · intro s' n hs
        split
        · exact List.mem_append_left _ hs
        · exact hs
      · intro s'
        rw [if_pos hX]
        exact List.mem_append_right _ (List.mem_singleton.2 rfl)

/-- C2: a re-export form (export brace X from src) in file B — whether
extracted by the primary parser (an ExportNamedDeclaration carrying a
source and a specifier whose exported and local names are X) or by the
fallback (an accepted exportBrace match with a from-clause whose name
list yields X on both the exported and local side) — both adds X to B's
recorded export set and records an ImportRecord of X from B whose target
is the resolution of src against B; consequently X is counted as used in
the resolved file and is never flagged as an unused export there. -/
theorem reexport_marks_used (fs : FS) (parse : String → Option (List ModuleNode))
    (files : List String) (projectPath B content X src : String)
    (hB : B ∈ files) (hr : fs.readFile B = some content)
    (hX : X ≠ "") (hsrc : src ≠ "")
    (hcase :
      (∃ nodes specifiers declNames, parse content = some nodes ∧
        ModuleNode.exportNamed specifiers declNames (some src) ∈ nodes ∧
        (⟨some X, some X⟩ : ExportSpecifier) ∈ specifiers) ∨
      (parse content = none ∧
        ∃ i g1, (i, (g1, some src.data)) ∈
            acceptedMatches exportBraceM content.data (stripL content.data) ∧
          X ∈ braceExportNames g1 ∧ X ∈ braceLocalNames g1)) :
    (∃ fe, lookupA (buildExportGraph fs parse files projectPath).exports B = some fe ∧
      X ∈ fe) ∧
    (∃ fi, lookupA (buildExportGraph fs parse files projectPath).imports B = some fi ∧
      (⟨X, resolveImportPath fs B src⟩ : ImportRecord) ∈ fi) ∧
    (∀ line, (⟨resolveImportPath fs B src, X, line⟩ : UnusedExport) ∉
      findUnusedExports fs (buildExportGraph fs parse files projectPath) files projectPath) := by
  obtain ⟨hx1, hx2⟩ :
      X ∈ (extractFacts fs parse B content).1 ∧
      (⟨X, resolveImportPath fs B src⟩ : ImportRecord) ∈
        (extractFacts fs parse B content).2 := by
    rcases hcase with ⟨nodes, specifiers, declNames, hp, hnode, hspec⟩ | ⟨hp, i, g1, hm, hXe, hXl⟩
    · exact extractFacts_primary_reexport fs parse B content nodes specifiers declNames
        src X hp hnode hspec hX hsrc
    · have h := extractRegex_reexport fs content.data (stripL content.data) B [] []
        i g1 src.data X hX hm hXe hXl
      simp only [extractFacts, hp]
      exact h
  obtain ⟨hl1, hl2⟩ := buildGraph_lookup fs parse files projectPath B content hB hr
  refine ⟨⟨_, hl1, hx1⟩, ⟨_, hl2, hx2⟩, ?_⟩
  intro line hmem
  rw [mem_findUnusedExports] at hmem
  obtain ⟨e, he, hfile, hn, h1, h2, hline⟩ := hmem
  replace hfile : resolveImportPath fs B src = e.1 := hfile
  replace h2 : isUsedExport (buildExportGraph fs parse files projectPath) e.1 X = false := h2
  have hused : usedPerClaim (buildExportGraph fs parse files projectPath)
      (resolveImportPath fs B src) X :=
    ⟨(B, (extractFacts fs parse B content).2), lookupA_isSome_mem _ _ _ hl2,
      ⟨X, resolveImportPath fs B src⟩, hx2, rfl, Or.inl rfl⟩
  have htrue : isUsedExport (buildExportGraph fs parse files projectPath)
      (resolveImportPath fs B src) X = true :=
    (isUsedExport_iff _ _ _).2 hused
  rw [← hfile] at h2
  rw [htrue] at h2
  exact absurd h2 (by decide)

theorem reexport_marks_used_witness :
    ∃ fe, lookupA (buildExportGraph fsC2 parseC2 ["/r/lib/b.ts"] "/r").exports
      "/r/lib/b.ts" = some fe ∧ "X" ∈ fe := by
  have h := reexport_marks_used fsC2 parseC2 ["/r/lib/b.ts"] "/r" "/r/lib/b.ts" "B" "X" "./a.ts"
    (by decide) (by decide) (by decide) (by decide)
    (Or.inl ⟨[.exportNamed [⟨some "X", some "X"⟩] [] (some "./a.ts")],
      [⟨some "X", some "X"⟩], [], by decide, by decide, by decide⟩)
  exact h.1

/-- C8: the Fallback Extractor accepts a pattern match only when the
match's start offset falls on a non-masked character of the normalized
text (first conjunct, for every matcher); consequently an export pattern
occurring only inside a comment yields no ExportRecord, while the
identical pattern occurring as real code in the same file is recorded
(second conjunct, on a concrete comment/code pair). -/
theorem fallback_rejects_masked_matches :
    (∀ (α : Type) (m : Matcher α) (text stripped : List Char) (i : Nat) (a : α),
      (i, a) ∈ acceptedMatches m text stripped → stripped[i]? ≠ some ' ') ∧
    (extractExportsAndImportsViaRegex fsNone "// export {f}\n".data
        (stripL "// export {f}\n".data) "/p/x.ts" [] [] = ([], []) ∧
      extractExportsAndImportsViaRegex fsNone ("// export {f}\nexport {f}\n").data
        (stripL ("// export {f}\nexport {f}\n").data) "/p/x.ts" [] [] = (["f"], [])) := by
  constructor
  · intro α m text stripped i a hmem
    simp only [acceptedMatches, List.mem_filter, inCode] at hmem
    simpa using hmem.2
  · exact ⟨by decide, by decide⟩

theorem fallback_rejects_masked_matches_witness :
    (stripL "export {f}".data)[0]? ≠ some ' ' :=
  fallback_rejects_masked_matches.1 _ exportBraceM "export {f}".data
    (stripL "export {f}".data) 0 ("f".data, none) (by decide)

theorem takeLit_cons_head (c : Char) (cs s : List Char) (r : Nat × List Char)
    (h : takeLit (c :: cs) s = some r) : ∃ xs, s = c :: xs := by
  cases s with
  | nil => simp [takeLit] at h
  | cons x xs =>
    simp only [takeLit] at h
    split at h
    · exact ⟨xs, by rw [show x = c from by assumption]⟩
    · simp at h

/-- C10: in the Fallback Extractor an import statement beginning with the
two keywords import type produces no ImportRecord — the named, default
and namespace-import rules all fail at such a position (first conjunct) —
so an export consumed only through type-only imports is still reported
as unused (second conjunct, on a concrete two-file scenario). -/
theorem import_type_no_import_record :
    (∀ (prev : Option Char) (s : List Char), importTypeAt prev s = true →
      namedImportM prev s = none ∧ defaultImportM prev s = none ∧
        namespaceImportM prev s = none) ∧
    analyzeUnusedExports fsC10 (fun _ => none) ["/r/lib/a.ts", "/r/lib/b.ts"] "/r" =
      [mkUnusedIssue "/r" "/r/lib/a.ts" "x" 1] := by
  constructor
  · intro prev s h
    simp only [importTypeAt, Bool.and_eq_true] at h
    obtain ⟨hwb, hrest⟩ := h
    split at hrest
    · rename_i n1 s1 hlit
      split at hrest
      · rename_i n2 s2 hsp
        obtain ⟨xs, hxs⟩ : ∃ xs, s2 = 't' :: xs := by
          simp only [typeAhead] at hrest
          split at hrest
          · rename_i n3 r htl
            exact takeLit_cons_head 't' _ s2 (n3, r) htl
          · simp at hrest
        refine ⟨?_, ?_, ?_⟩
        · simp [namedImportM, hwb, hlit, hsp, hrest]
        · simp [defaultImportM, hwb, hlit, hsp, hrest]
        · simp [namespaceImportM, hwb, hlit, hsp, hxs, takeLit]
      · simp at hrest
    · simp at hrest
  · decide

theorem import_type_no_import_record_witness :
    namedImportM none "import type {x} from './a.ts'".data = none ∧
      defaultImportM none "import type {x} from './a.ts'".data = none ∧
      namespaceImportM none "import type {x} from './a.ts'".data = none :=
  import_type_no_import_record.1 none _ (by decide)
